import Mathlib

/-!
Verification development for the ChemBalance stoichiometry engine
(`lib/chem/parser.ts` and `lib/chem/solver.ts`).

The TypeScript source is shallowly embedded: strings are `List Char` /
`String`, JavaScript `Map` / plain records become association lists in
insertion order, JavaScript numbers that hold integer data become `ℤ`
(digit runs are parsed exactly), and the solver's exact-fraction type
becomes a `Frac` structure.  Code that can throw (`Map` operations on an
`undefined` stack slot, `makeFrac` with a zero denominator) is embedded
in `Option` / `Except String`.  Loops with an index that can skip ahead
are rendered as structural recursion on an explicit step budget that the
top-level wrappers instantiate with the input length (each loop
iteration consumes at least one token, so the budget is never
exhausted on the wrapper's own calls).
-/

namespace ChemBalance

/-! ## Character classes (regexes of `parser.ts`) -/

/-- Whitespace stripped by `formula.replace(/\s+/g, "")` and trimmed by
`String.prototype.trim`. -/
def isWsChar (c : Char) : Bool :=
  c = ' ' ∨ c = '\t' ∨ c = '\n' ∨ c = '\r' ∨ c = '\x0b' ∨ c = '\x0c'

/-- The regex `/[A-Z]/`. -/
def isUpperChar (c : Char) : Bool := 'A' ≤ c ∧ c ≤ 'Z'

/-- The regex `/[a-z]/`. -/
def isLowerChar (c : Char) : Bool := 'a' ≤ c ∧ c ≤ 'z'

/-- The regex `/\d/`. -/
def isDigitChar (c : Char) : Bool := '0' ≤ c ∧ c ≤ '9'

/-- The regex `/[()\[\]{}]/`. -/
def parenChars : List Char := ['(', ')', '[', ']', '{', '}']

/-- The opener set `new Set(["(", "[", "{"])`. -/
def openerChars : List Char := ['(', '[', '{']

/-- The closer set `new Set([")", "]", "}"])`. -/
def closerChars : List Char := [')', ']', '}']

/-- Exact base-10 value of a digit run (`parseInt(s.slice(i, j), 10)`). -/
def digitsToInt (ds : List Char) : ℤ :=
  ds.foldl (fun acc c => acc * 10 + ((c.toNat - 48 : ℕ) : ℤ)) 0

/-! ## Arrow normalization (`normalizeArrow`) -/

/-- Match a literal pattern at the head of the input, returning the rest. -/
def stripPat : List Char → List Char → Option (List Char)
  | [], s => some s
  | _ :: _, [] => none
  | p :: ps, c :: cs => if c = p then stripPat ps cs else none

/-- Match a nonempty run of `ch` followed by `>` (the regex pieces
`-+>` and `=+>`). -/
def matchRun (ch : Char) (s : List Char) : Option (List Char) :=
  match s.takeWhile (fun c => c = ch) with
  | [] => none
  | _ :: _ => stripPat ['>'] (s.dropWhile (fun c => c = ch))

/-- Try the alternatives of the regex `⇌|<=>|⟷|⇒|→|<-+>|=+>|-+>` at the
current position, in the regex's order.  Returns the input remaining
after the matched arrow. -/
def matchArrow (s : List Char) : Option (List Char) :=
  stripPat ['⇌'] s <|>
  stripPat ['<', '=', '>'] s <|>
  stripPat ['⟷'] s <|>
  stripPat ['⇒'] s <|>
  stripPat ['→'] s <|>
  (stripPat ['<'] s).bind (matchRun '-') <|>
  matchRun '=' s <|>
  matchRun '-' s

/-- One left-to-right pass of `s.replace(/⇌|<=>|⟷|⇒|→|<-+>|=+>|-+>/g, "->")`:
at each position try the alternatives, emit `->` on a match and continue
after it, otherwise emit the character and move on.  The step budget is
instantiated with the string length by `normalizeArrow`; every step
consumes at least one character, so it never runs out there. -/
def normGo : ℕ → List Char → List Char
  | _, [] => []
  | 0, s => s
  | fuel + 1, c :: cs =>
    match matchArrow (c :: cs) with
    | some rest => '-' :: '>' :: normGo fuel rest
    | none => c :: normGo fuel cs

/-- `normalizeArrow` from `parser.ts`. -/
def normalizeArrow (s : String) : String :=
  String.mk (normGo s.toList.length s.toList)

/-! ## Equation splitting (`splitEquation`) -/

/-- `split("->")`: split on non-overlapping occurrences of the
two-character arrow, leftmost first. -/
def splitArrow : List Char → List (List Char)
  | [] => [[]]
  | '-' :: '>' :: rest => [] :: splitArrow rest
  | c :: rest =>
    match splitArrow rest with
    | [] => [[c]]
    | chunk :: chunks => (c :: chunk) :: chunks

/-- Number of non-overlapping `->` occurrences, scanning left to right. -/
def arrowCount : List Char → ℕ
  | [] => 0
  | '-' :: '>' :: rest => 1 + arrowCount rest
  | _ :: rest => arrowCount rest

/-- `split("+")` on one side of the equation. -/
def splitPlus : List Char → List (List Char)
  | [] => [[]]
  | '+' :: rest => [] :: splitPlus rest
  | c :: rest =>
    match splitPlus rest with
    | [] => [[c]]
    | chunk :: chunks => (c :: chunk) :: chunks

/-- Drop the leading run of whitespace characters from the end of a list. -/
def dropEndWs (l : List Char) : List Char :=
  (l.reverse.dropWhile isWsChar).reverse

/-- `String.prototype.trim`. -/
def trimL (l : List Char) : List Char :=
  dropEndWs (l.dropWhile isWsChar)

/-- String-level trim. -/
def trimS (s : String) : String := String.mk (trimL s.toList)

/-- One side of the parsed equation: split on `+`, trim each chunk,
drop empty chunks (`.filter(Boolean)`). -/
def sideChunks (l : List Char) : List String :=
  ((splitPlus l).map (fun c => String.mk (trimL c))).filter (fun s => s ≠ "")

/-- Result type of `splitEquation`. -/
structure SplitEq where
  left : List String
  right : List String
deriving DecidableEq, Repr

/-- `splitEquation` from `parser.ts`: normalize the arrow, split on `->`,
require exactly two parts (otherwise the sentinel `null`), then split
each side on `+` with trimming and empty-chunk dropping. -/
def splitEquation (eqn : String) : Option SplitEq :=
  match splitArrow (normalizeArrow eqn).toList with
  | [lhs, rhs] => some ⟨sideChunks lhs, sideChunks rhs⟩
  | _ => none

/-! ## Formula tokenizer (`tokenizeFormula`) -/

/-- The `Token` union of `parser.ts`.  Element multiplicities and bare
integers are JavaScript numbers holding exact digit-run values. -/
inductive Token where
  | dot : Token
  | paren : Char → Token
  | elem : String → ℤ → Token
  | num : ℤ → Token
deriving DecidableEq, Repr

/-- The scanning loop of `tokenizeFormula`, over the whitespace-stripped
character list.  Every iteration consumes at least one character, so the
step budget (instantiated with the input length) never runs out on the
wrapper's calls. -/
def tokenizeAux : ℕ → List Char → List Token
  | _, [] => []
  | 0, _ :: _ => []
  | fuel + 1, c :: cs =>
    if c = '·' ∨ c = '.' then Token.dot :: tokenizeAux fuel cs
    else if c ∈ parenChars then Token.paren c :: tokenizeAux fuel cs
    else if isUpperChar c then
      match cs with
      | d :: cs' =>
        if isLowerChar d then
          Token.elem (String.mk [c, d])
              (if (cs'.takeWhile isDigitChar).isEmpty then 1
               else digitsToInt (cs'.takeWhile isDigitChar)) ::
            tokenizeAux fuel (cs'.dropWhile isDigitChar)
        else
          Token.elem (String.mk [c])
              (if (cs.takeWhile isDigitChar).isEmpty then 1
               else digitsToInt (cs.takeWhile isDigitChar)) ::
            tokenizeAux fuel (cs.dropWhile isDigitChar)
      | [] => Token.elem (String.mk [c]) 1 :: tokenizeAux fuel []
    else if isDigitChar c then
      Token.num (digitsToInt (c :: cs.takeWhile isDigitChar)) ::
        tokenizeAux fuel (cs.dropWhile isDigitChar)
    else tokenizeAux fuel cs

/-- `tokenizeFormula` from `parser.ts`: strip all whitespace, then scan. -/
def tokenizeFormula (formula : String) : List Token :=
  tokenizeAux (formula.toList.filter (fun c => ¬ isWsChar c)).length
    (formula.toList.filter (fun c => ¬ isWsChar c))

/-! ## Formula evaluator (`tokensToCounts`) -/

/-- A JavaScript `Map<string, number>` of element counts, as an
association list in insertion order (`Map.set` updates in place,
otherwise appends). -/
abbrev Counts := List (String × ℤ)

/-- `map.get(k) || 0`. -/
def mapGetD (m : Counts) (k : String) : ℤ :=
  ((m.find? (fun p => p.1 = k)).map Prod.snd).getD 0

/-- `map.set(k, v)`: update the existing entry in place, else append. -/
def mapSet (m : Counts) (k : String) (v : ℤ) : Counts :=
  if m.any (fun p => p.1 = k) then
    m.map (fun p => if p.1 = k then (k, v) else p)
  else m ++ [(k, v)]

/-- The `pushCounts` helper: `into.set(elem, (into.get(elem) || 0) + n)`. -/
def pushCounts (m : Counts) (elem : String) (n : ℤ) : Counts :=
  mapSet m elem (mapGetD m elem + n)

/-- Multiply every entry of a popped group / nested result by a
multiplier, as in `pushCounts(top, k, val * mult)`. -/
def scaleEntries (mult : ℤ) (g : Counts) : Counts :=
  g.map (fun p => (p.1, p.2 * mult))

/-- Merge a list of entries into `stack.at(-1)!` via `pushCounts`.  When
the stack is empty, `stack.at(-1)` is `undefined`: merging at least one
entry into it throws (`none`); merging zero entries is a no-op. -/
def mergeIntoTop (st : List Counts) (xs : Counts) : Option (List Counts) :=
  match st with
  | top :: rest => some (xs.foldl (fun t p => pushCounts t p.1 p.2) top :: rest)
  | [] => if xs.isEmpty then some [] else none

/-- The look-ahead of the `num`-before-open-bracket case: number of
tokens from the opening bracket through its depth-matching closer
(`j - (i + 1)` in the source), or all remaining tokens if unmatched.
The depth counter is a JavaScript number and may go negative. -/
def findCloseRel : List Token → ℤ → ℕ
  | [], _ => 0
  | Token.paren c :: ts, depth =>
    if c ∈ openerChars then 1 + findCloseRel ts (depth + 1)
    else if c ∈ closerChars then
      if depth = 1 then 1 else 1 + findCloseRel ts (depth - 1)
    else 1 + findCloseRel ts depth
  | _ :: ts, depth => 1 + findCloseRel ts depth

/-- The main loop of `tokensToCounts`.  The stack of accumulators has
its top at the head (`stack.at(-1)`); the root accumulator is the last
element (`stack[0]`), which is what the function returns.  A thrown
`TypeError` (operations on an `undefined` accumulator) is `none`, and
`stack[0]` of an emptied stack is also `none` because the caller
iterates over it.  Each iteration consumes at least one token, so the
step budget (instantiated with the token-list length by
`tokensToCounts`) never runs out on the wrapper's calls. -/
def goTok : ℕ → List Token → List Counts → Option Counts
  | _, [], st => st.getLast?
  | 0, _ :: _, _ => none
  | fuel + 1, Token.elem s n :: rest, st =>
    (mergeIntoTop st [(s, n)]).bind (goTok fuel rest)
  | fuel + 1, Token.paren c :: rest, st =>
    if c ∈ openerChars then goTok fuel rest (([] : Counts) :: st)
    else if c ∈ closerChars then
      match st with
      | [] => none
      | group :: st' =>
        match rest with
        | Token.num mult :: rest' =>
          (mergeIntoTop st' (scaleEntries mult group)).bind (goTok fuel rest')
        | _ => (mergeIntoTop st' (scaleEntries 1 group)).bind (goTok fuel rest)
    else goTok fuel rest st
  | fuel + 1, Token.dot :: rest, st =>
    match rest with
    | Token.num n :: rest' =>
      (goTok fuel rest' [([] : Counts)]).bind fun sub =>
        (mergeIntoTop st (scaleEntries n sub)).bind fun st2 => st2.getLast?
    | _ => goTok fuel rest st
  | fuel + 1, Token.num n :: rest, st =>
    match rest with
    | [] => goTok fuel rest st
    | Token.elem s cnt :: rest' =>
      (mergeIntoTop st [(s, cnt * n)]).bind (goTok fuel rest')
    | Token.paren c :: _ =>
      if c ∈ openerChars then
        (goTok fuel (rest.take (findCloseRel rest 0)) [([] : Counts)]).bind fun sub =>
          (mergeIntoTop st (scaleEntries n sub)).bind fun st2 =>
            goTok fuel (rest.drop (findCloseRel rest 0)) st2
      else goTok fuel rest st
    | _ => goTok fuel rest st

/-- `tokensToCounts` from `parser.ts`: run the loop with one fresh root
accumulator.  `none` models a thrown `TypeError` or an `undefined`
result that the caller would throw on. -/
def tokensToCounts (tokens : List Token) : Option Counts :=
  goTok tokens.length tokens [([] : Counts)]

/-! ## Sorted output (`countElementsInFormula`, `sumCounts`) -/

/-- Lexicographic comparison of two symbols by character code.  This
models `a.localeCompare(b) <= 0`; on the element symbols the tokenizer
produces (an uppercase letter optionally followed by a lowercase
letter) the locale order and the code-unit order coincide. -/
def lexLe : List Char → List Char → Bool
  | [], _ => true
  | _ :: _, [] => false
  | a :: as, b :: bs => if a < b then true else if b < a then false else lexLe as bs

/-- Insert one entry into a key-sorted list of entries. -/
def insertPair (p : String × ℤ) : List (String × ℤ) → List (String × ℤ)
  | [] => [p]
  | q :: qs => if lexLe p.1.toList q.1.toList then p :: q :: qs else q :: insertPair p qs

/-- `entries.sort(([a], [b]) => a.localeCompare(b))`: a sort of the
entry list by symbol. -/
def sortPairs : List (String × ℤ) → List (String × ℤ)
  | [] => []
  | p :: ps => insertPair p (sortPairs ps)

/-- `countElementsInFormula` from `parser.ts`: tokenize, evaluate, and
return the entries sorted by element symbol. -/
def countElementsInFormula (formula : String) : Option Counts :=
  (tokensToCounts (tokenizeFormula formula)).map sortPairs

/-- A record of element counts (`Record<string, number>`), as an
association list with unique keys. -/
abbrev Records := List (String × ℤ)

/-- The inner accumulation loop of `sumCounts`:
`for ([el, n] of Object.entries(obj)) out.set(el, (out.get(el) || 0) + n)`. -/
def addEntries (out : Records) (obj : Records) : Records :=
  obj.foldl (fun o p => mapSet o p.1 (mapGetD o p.1 + p.2)) out

/-- `sumCounts` from `parser.ts`: accumulate all records into one map,
then return the entries sorted by element symbol. -/
def sumCounts (list : List Records) : Records :=
  sortPairs (list.foldl addEntries [])

/-- A well-formed JavaScript record: its keys are pairwise distinct. -/
def keysNodup (l : Records) : Prop := (l.map Prod.fst).Nodup

/-- Total adapter passing `countElementsInFormula` as the solver's
`countFn`.  On every input on which the source function returns a value
(rather than throwing) the two agree; the default is never reached on
the concrete inputs used below. -/
def countElementsFn (f : String) : Records :=
  (countElementsInFormula f).getD []

/-! ## Stoichiometric matrix builder (`buildElementMatrix`, `solver.ts`) -/

/-- `counts[el] || 0` on a record. -/
def getRec (r : Records) (k : String) : ℤ :=
  ((r.find? (fun p => p.1 = k)).map Prod.snd).getD 0

/-- Iteration of a `Set` being filled left to right: keep elements not
seen before. -/
def dedupSeen : List String → List String → List String
  | [], _ => []
  | x :: xs, seen =>
    if x ∈ seen then dedupSeen xs seen else x :: dedupSeen xs (x :: seen)

/-- `Array.from(new Set(xs))`: deduplicate keeping first occurrences. -/
def dedupFirst (l : List String) : List String := dedupSeen l []

/-- Sort a list of symbols (`.sort((a, b) => a.localeCompare(b))`). -/
def insertStr (s : String) : List String → List String
  | [] => [s]
  | t :: ts => if lexLe s.toList t.toList then s :: t :: ts else t :: insertStr s ts

/-- Insertion-sort rendering of `Array.prototype.sort` on symbols. -/
def sortStrs : List String → List String
  | [] => []
  | s :: ss => insertStr s (sortStrs ss)

/-- Result of `buildElementMatrix`. -/
structure BuildRes where
  A : List (List ℤ)
  elements : List String
deriving DecidableEq, Repr

/-- `buildElementMatrix` from `solver.ts` (identical in both versions of
the file): rows are the sorted union of the element symbols of both
sides, columns are the left species (raw counts) followed by the right
species (negated counts).  The column-filling loops are rendered
index-wise. -/
def buildElementMatrix (leftFormulas rightFormulas : List String)
    (countFn : String → Records) : BuildRes :=
  let elements :=
    sortStrs (dedupFirst ((leftFormulas ++ rightFormulas).foldr
      (fun f acc => (countFn f).map Prod.fst ++ acc) []))
  let A := elements.map (fun el =>
    leftFormulas.map (fun f => getRec (countFn f) el) ++
    rightFormulas.map (fun f => -(getRec (countFn f) el)))
  ⟨A, elements⟩

/-- A coefficient suggestion `{left, right}`. -/
structure Coeffs where
  left : List ℤ
  right : List ℤ
deriving DecidableEq, Repr

/-- Result of `analyzeBalanceability`. -/
structure AnalyzeRes where
  balanceableAllSpecies : Bool
  nullity : ℕ
  suggestion : Option Coeffs
deriving DecidableEq, Repr

/-! ## Exact fractions

Both solver versions are embedded over a reduced-fraction type: the
first (floating-point) version's real arithmetic is idealized as exact
rational arithmetic, and the second version's `Frac` record is this
type with its operations in `Except` (its `makeFrac` can throw). -/

/-- A numerator/denominator pair; all constructors below keep the
denominator positive and the pair reduced. -/
structure Frac where
  num : ℤ
  den : ℤ
deriving DecidableEq, Repr

/-- The `gcd` helper of the rational solver: Euclid's loop on absolute
values, with `return a || 1` turning a zero result into 1. -/
def gcdJS (a b : ℤ) : ℤ :=
  if (Int.gcd a b : ℤ) = 0 then 1 else (Int.gcd a b : ℤ)

/-- The `lcm` helper: `(a / gcd(a, b)) * b` (the division is exact). -/
def lcmJS (a b : ℤ) : ℤ := a / gcdJS a b * b

/-- Total normalization of a fraction (sign fixed, reduced by the gcd);
used for the idealized-exact arithmetic of the floating-point solver.
The zero-denominator case never arises there (divisions are by pivots
that passed the nonzero test). -/
def normFrac (n d : ℤ) : Frac :=
  if d = 0 then ⟨0, 1⟩
  else
    let n' := if d < 0 then -n else n
    let d' := if d < 0 then -d else d
    if n' = 0 then ⟨0, 1⟩ else ⟨n' / Int.gcd n' d', d' / Int.gcd n' d'⟩

/-- Embed an integer (a matrix entry, a sign, a literal). -/
def intFrac (z : ℤ) : Frac := ⟨z, 1⟩

/-- Exact addition (idealizing float `+`). -/
def qAdd (a b : Frac) : Frac := normFrac (a.num * b.den + b.num * a.den) (a.den * b.den)

/-- Exact subtraction (idealizing float `-`). -/
def qSub (a b : Frac) : Frac := normFrac (a.num * b.den - b.num * a.den) (a.den * b.den)

/-- Exact multiplication (idealizing float `*`). -/
def qMul (a b : Frac) : Frac := normFrac (a.num * b.num) (a.den * b.den)

/-- Exact division (idealizing float `/`; divisors are nonzero pivots). -/
def qDiv (a b : Frac) : Frac := normFrac (a.num * b.den) (a.den * b.num)

/-- `Math.abs`. -/
def qAbs (a : Frac) : Frac := ⟨|a.num|, a.den⟩

/-- Exact order (idealizing float `<`); sound because all constructed
denominators are positive. -/
def qLt (a b : Frac) : Bool := a.num * b.den < b.num * a.den

/-- `x === 0` on the idealized reals. -/
def qZero : Frac := ⟨0, 1⟩

/-- Float negation `-x`. -/
def qNeg (a : Frac) : Frac := ⟨-a.num, a.den⟩

/-- `M[r][c]` (out-of-range reads never occur on the reachable states). -/
def getEntry (M : List (List Frac)) (r c : ℕ) : Frac :=
  (M.getD r []).getD c qZero

/-- `[M[i], M[j]] = [M[j], M[i]]`. -/
def swapRows (l : List (List Frac)) (i j : ℕ) : List (List Frac) :=
  (l.set i (l.getD j [])).set j (l.getD i [])

/-! ## Floating-point nullspace solver (first version of `solver.ts`)

The JavaScript version runs on IEEE doubles; it is embedded here with
the arithmetic idealized as exact rationals (including its literal
`EPS = 1e-12` tolerance, read as the rational 1/10^12). -/

namespace NullspaceSolver

/-- The tolerance `1e-12` of the floating-point elimination. -/
def EPS : Frac := ⟨1, 10 ^ 12⟩

/-- State of the row-reduction loop of `nullspace`. -/
structure NState where
  M : List (List Frac)
  row : ℕ
  pivots : List (Option ℕ)
deriving Repr

/-- The partial-pivot search
`for (r = row; r < m; r++) if (|M[r][col]| > |M[best][col]|) best = r`,
with `rem` counting the remaining candidate rows. -/
def bestPivotAux (M : List (List Frac)) (col : ℕ) : ℕ → ℕ → ℕ → ℕ
  | 0, _, best => best
  | rem + 1, r, best =>
    if qLt (qAbs (getEntry M best col)) (qAbs (getEntry M r col))
    then bestPivotAux M col rem (r + 1) r
    else bestPivotAux M col rem (r + 1) best

/-- `for (c = col; c < n; c++) M[row][c] /= div`. -/
def rowDivFromT (col : ℕ) (div : Frac) (r : List Frac) : List Frac :=
  r.take col ++ (r.drop col).map (fun x => qDiv x div)

/-- `for (c = col; c < n; c++) M[r][c] -= factor * M[row][c]`. -/
def rowElimFromT (col : ℕ) (factor : Frac) (pivRow r : List Frac) : List Frac :=
  r.take col ++ ((r.drop col).zip (pivRow.drop col)).map
    (fun p => qSub p.1 (qMul factor p.2))

/-- The column loop of `nullspace` (`for col while row < m`), with the
remaining column count as the structural counter. -/
def nsGo (m : ℕ) : ℕ → ℕ → NState → NState
  | 0, _, st => st
  | k + 1, col, st =>
    if st.row ≥ m then st
    else
      let best := bestPivotAux st.M col (m - st.row) st.row st.row
      if qLt (qAbs (getEntry st.M best col)) EPS then nsGo m k (col + 1) st
      else
        let M1 := swapRows st.M st.row best
        let div := getEntry M1 st.row col
        let newRow := rowDivFromT col div (M1.getD st.row [])
        let M2 := M1.mapIdx (fun r mr =>
          if r = st.row then newRow
          else
            let factor := getEntry M1 r col
            if qLt EPS (qAbs factor) then rowElimFromT col factor newRow mr else mr)
        nsGo m k (col + 1) ⟨M2, st.row + 1, st.pivots.set col (some st.row)⟩

/-- The free columns: those with `pivots[col] === -1`. -/
def freeColsOf (pivots : List (Option ℕ)) (n : ℕ) : List ℕ :=
  (List.range n).filter (fun c => (pivots.getD c none).isNone)

/-- One nullspace basis vector: `v[f] = 1`, `v[c] = -M[r][c === pivot]`
for pivot columns, 0 elsewhere. -/
def basisVec (M : List (List Frac)) (pivots : List (Option ℕ)) (n f : ℕ) : List Frac :=
  (List.range n).map (fun c =>
    match pivots.getD c none with
    | some r => qNeg (getEntry M r f)
    | none => if c = f then intFrac 1 else qZero)

/-- `nullspace` from the first version of `solver.ts`: row-reduce a copy
of `A`, then emit one basis vector per free column (the empty list when
there is none). -/
def nullspace (A : List (List ℤ)) : List (List Frac) :=
  let m := A.length
  let n := (A.headD []).length
  let st := nsGo m n 0 ⟨A.map (fun row => row.map intFrac), 0, List.replicate n none⟩
  (freeColsOf st.pivots n).map (basisVec st.M st.pivots n)

/-- `allPositiveUpToSign`: flip the sign if most entries are negative,
then require every entry to clear the `EPS` threshold strictly. -/
def allPositiveUpToSign (v : List Frac) : Bool :=
  let neg := (v.filter (fun x => qLt x qZero)).length
  let pos := v.length - neg
  let s : Frac := if neg > pos then intFrac (-1) else intFrac 1
  v.all (fun x => qLt EPS (qMul s x))

/-- The search coefficients `K = [-3, -2, -1, 1, 2, 3]`. -/
def Kcoeffs : List ℤ := [-3, -2, -1, 1, 2, 3]

/-- All coefficient tuples the generator `combos` yields, in yield
order (index 0 varies slowest). -/
def allCombos : ℕ → List (List ℤ)
  | 0 => [[]]
  | b + 1 => Kcoeffs.foldr (fun k acc => (allCombos b).map (fun cs => k :: cs) ++ acc) []

/-- The accumulation `for i, j: v[j] += coeffs[i] * basis[i][j]`,
rendered index-wise. -/
def comboVec (cs : List ℤ) (basis : List (List Frac)) : List Frac :=
  (List.range ((basis.headD []).length)).map (fun j =>
    (cs.zip basis).foldl (fun acc p => qAdd acc (qMul (intFrac p.1) (p.2.getD j qZero))) qZero)

/-- `findSignedFeasibleSolution` from the first version of `solver.ts`:
for a 1-dimensional basis test `±` the single vector; otherwise return
the first accepted small integer combination, or `null`. -/
def findSignedFeasibleSolution (basis : List (List Frac)) (leftLen rightLen : ℕ) :
    Option (List Frac) :=
  match basis with
  | [] => none
  | [v0] =>
    [(1 : ℤ), -1].findSome? (fun s =>
      let v := v0.map (fun x => qMul (intFrac s) x)
      if allPositiveUpToSign v then some v else none)
  | _ =>
    (allCombos basis.length).findSome? (fun cs =>
      let v := comboVec cs basis
      if allPositiveUpToSign v then some v else none)

/-- `Math.round` (half away from zero rounds half up in JavaScript:
`round(x) = ⌊x + 1/2⌋`), on a fraction with positive denominator. -/
def roundJS (q : Frac) : ℤ := (2 * q.num + q.den) / (2 * q.den)

/-- `gcdArray`: fold the two-argument Euclid over the array starting
from 0, with `|| 1` turning a zero result into 1. -/
def gcdArray (arr : List ℤ) : ℤ :=
  if arr.foldl (fun a b => (Int.gcd a b : ℤ)) 0 = 0 then 1
  else arr.foldl (fun a b => (Int.gcd a b : ℤ)) 0

/-- `toIntegerCoefficients` from the first version of `solver.ts`:
sign-fix by majority, take absolute values, scale by `1e6` and round,
divide by the gcd, split at the species boundary. -/
def toIntegerCoefficients (v : List Frac) (leftLen rightLen : ℕ) : Coeffs :=
  let neg := (v.filter (fun x => qLt x qZero)).length
  let pos := v.length - neg
  let v2 := if neg > pos then v.map qNeg else v
  let scaled := (v2.map qAbs).map (fun x => roundJS (qMul x (intFrac 1000000)))
  let g := gcdArray scaled
  let ints := scaled.map (fun x => x / g)
  ⟨ints.take leftLen, ints.drop leftLen⟩

/-- `analyzeBalanceability` from the first version of `solver.ts`. -/
def analyzeBalanceability (leftFormulas rightFormulas : List String)
    (countFn : String → Records) : AnalyzeRes :=
  let b := buildElementMatrix leftFormulas rightFormulas countFn
  if b.A.length = 0 then ⟨false, 0, none⟩
  else
    let basis := nullspace b.A
    if basis.length = 0 then ⟨false, basis.length, none⟩
    else
      match findSignedFeasibleSolution basis leftFormulas.length rightFormulas.length with
      | none => ⟨false, basis.length, none⟩
      | some v =>
        ⟨true, basis.length, some (toIntegerCoefficients v leftFormulas.length rightFormulas.length)⟩

/-- `solveEquation` from the first version of `solver.ts`. -/
def solveEquation (leftFormulas rightFormulas : List String)
    (countFn : String → Records) : Option Coeffs :=
  let r := analyzeBalanceability leftFormulas rightFormulas countFn
  if r.balanceableAllSpecies then r.suggestion else none

end NullspaceSolver

/-! ## Exact rational solver (second version of `solver.ts`)

This version computes with the `Frac` record exactly; the only way it
can throw is `makeFrac` with a zero denominator, so every step lives in
`Except String`. -/

namespace RationalSolver

/-- `makeFrac`: throw on a zero denominator, fix the sign, reduce by
the gcd (both divisions are exact). -/
def makeFrac (num den : ℤ) : Except String Frac :=
  if den = 0 then .error "Zero denominator"
  else
    let n := if den < 0 then -num else num
    let d := if den < 0 then -den else den
    if n = 0 then .ok ⟨0, 1⟩
    else .ok ⟨n / gcdJS n d, d / gcdJS n d⟩

/-- `fAdd`. -/
def fAdd (a b : Frac) : Except String Frac :=
  makeFrac (a.num * b.den + b.num * a.den) (a.den * b.den)

/-- `fSub`. -/
def fSub (a b : Frac) : Except String Frac :=
  makeFrac (a.num * b.den - b.num * a.den) (a.den * b.den)

/-- `fMul`. -/
def fMul (a b : Frac) : Except String Frac :=
  makeFrac (a.num * b.num) (a.den * b.den)

/-- `fDiv`. -/
def fDiv (a b : Frac) : Except String Frac :=
  makeFrac (a.num * b.den) (a.den * b.num)

/-- State of the elimination loop of `solveRationalForLastColumn`. -/
structure EState where
  B : List (List Frac)
  b : List Frac
  row : ℕ
  pivots : List (Option ℕ)
deriving Repr

/-- The pivot search
`while (pivot < m && B[pivot][col].num === 0) pivot++`, with `rem`
counting the remaining candidate rows; `none` is `pivot === m`. -/
def pivotFindAux (B : List (List Frac)) (col : ℕ) : ℕ → ℕ → Option ℕ
  | 0, _ => none
  | rem + 1, p =>
    if (getEntry B p col).num ≠ 0 then some p else pivotFindAux B col rem (p + 1)

/-- Pivot search from row `start` among `m` rows. -/
def pivotFind (m : ℕ) (B : List (List Frac)) (col start : ℕ) : Option ℕ :=
  pivotFindAux B col (m - start) start

/-- `for (j = col; j < nvars; j++) B[row][j] = fDiv(B[row][j], piv)`. -/
def rowDivFrom (col : ℕ) (piv : Frac) (r : List Frac) : Except String (List Frac) := do
  let tl ← (r.drop col).mapM (fun x => fDiv x piv)
  pure (r.take col ++ tl)

/-- `for (j = col; j < nvars; j++) B[r][j] = fSub(B[r][j], fMul(factor, B[row][j]))`. -/
def rowElimFrom (col : ℕ) (factor : Frac) (pivRow r : List Frac) :
    Except String (List Frac) := do
  let tl ← ((r.drop col).zip (pivRow.drop col)).mapM
    (fun p => do fSub p.1 (← fMul factor p.2))
  pure (r.take col ++ tl)

/-- Elimination of every row other than the pivot row:
`factor = B[r][col]; if (factor.num === 0) continue; ...` applied to
the row pair `(B[r], b[r])`. -/
def elimRow (col r : ℕ) (st : EState) (newRow : List Frac) (newbr : Frac) :
    Except String (List Frac × Frac) :=
  if r = st.row then pure (newRow, newbr)
  else
    if (getEntry st.B r col).num = 0 then pure (st.B.getD r [], st.b.getD r qZero)
    else
      (rowElimFrom col (getEntry st.B r col) newRow (st.B.getD r [])).bind fun rr =>
      (fMul (getEntry st.B r col) newbr).bind fun t =>
      (fSub (st.b.getD r qZero) t).bind fun bb =>
      pure (rr, bb)

/-- The in-place row/right-hand-side swap
`[B[pivot], B[row]] = [B[row], B[pivot]]; [b[pivot], b[row]] = ...`. -/
def swapState (st : EState) (p : ℕ) : EState :=
  ⟨swapRows st.B st.row p,
   (st.b.set st.row (st.b.getD p qZero)).set p (st.b.getD st.row qZero),
   st.row, st.pivots⟩

/-- The column loop of `solveRationalForLastColumn`
(`for col while row < m`), with the remaining column count as the
structural counter. -/
def elimGo (m : ℕ) : ℕ → ℕ → EState → Except String EState
  | 0, _, st => pure st
  | k + 1, col, st =>
    if st.row ≥ m then pure st
    else
      match pivotFind m st.B col st.row with
      | none => elimGo m k (col + 1) st
      | some p =>
        (rowDivFrom col (getEntry (swapState st p).B st.row col)
            ((swapState st p).B.getD st.row [])).bind fun newRow =>
        (fDiv ((swapState st p).b.getD st.row qZero)
            (getEntry (swapState st p).B st.row col)).bind fun newbr =>
        ((List.range m).mapM
            (fun r => elimRow col r (swapState st p) newRow newbr)).bind fun pairs =>
        elimGo m k (col + 1)
          ⟨pairs.map Prod.fst, pairs.map Prod.snd, st.row + 1,
           st.pivots.set col (some st.row)⟩

/-- `solveRationalForLastColumn`: treat the last column as the fixed
variable `1`, eliminate `B x' = b` with `B` the first `n - 1` columns
and `b` the negated last column, and read one particular solution off
the pivot rows (free variables 0).  `none` is the source's `null` for
`n <= 1`; a thrown error propagates. -/
def solveRationalForLastColumn (A : List (List ℤ)) :
    Except String (Option (List Frac)) :=
  if (A.headD []).length ≤ 1 then pure none
  else
    (A.mapM (fun (row : List ℤ) =>
        (row.take ((A.headD []).length - 1)).mapM (fun z => makeFrac z 1))).bind fun B =>
    (A.mapM (fun (row : List ℤ) =>
        makeFrac (-(row.getD ((A.headD []).length - 1) 0)) 1)).bind fun b =>
    (elimGo A.length ((A.headD []).length - 1) 0
        ⟨B, b, 0, List.replicate ((A.headD []).length - 1) none⟩).bind fun st =>
    pure (some (((List.range ((A.headD []).length - 1)).map (fun c =>
      match st.pivots.getD c none with
      | some r => st.b.getD r qZero
      | none => qZero)) ++ [⟨1, 1⟩]))

/-- `(f.num * (commonDen / f.den)) | 0`: `ToInt32` wrap-around on the
idealized exact product. -/
def toInt32 (z : ℤ) : ℤ := (z + 2 ^ 31) % 2 ^ 32 - 2 ^ 31

/-- The exact re-verification `A * final == 0` of `fracsToIntegerCoeffs`
on one row (integer arithmetic, no tolerance). -/
def rowDotZero (row : List ℤ) (x : List ℤ) : Bool :=
  ((row.zip x).map (fun p => p.1 * p.2)).sum = 0

/-- `fracsToIntegerCoeffs` from the second version of `solver.ts`:
clear denominators by their lcm, reject the zero vector, flip the sign
if negatives outnumber positives, take absolute values, divide by the
gcd (computed by a fold whose seed is `absVec[0] || 1`, skipping zero
entries), verify `A * final == 0` exactly, and split at the species
boundary.  A failed verification discards the result (`none`). -/
def fracsToIntegerCoeffs (fv : List Frac) (leftLen rightLen : ℕ)
    (A : List (List ℤ)) : Option Coeffs :=
  if fv.length = 0 then none
  else
    let commonDen := fv.foldl (fun acc f => lcmJS acc f.den) 1
    let vec := fv.map (fun f => toInt32 (f.num * (commonDen / f.den)))
    if vec.all (fun v => v = 0) then none
    else
      let neg := (vec.filter (fun v => v < 0)).length
      let pos := (vec.filter (fun v => 0 < v)).length
      let vec2 := if neg > pos then vec.map (fun v => -v) else vec
      let absVec := vec2.map (fun v => |v|)
      let g := absVec.foldl (fun acc v => if v ≠ 0 then gcdJS acc v else acc)
        (if absVec.headD 0 = 0 then 1 else absVec.headD 0)
      let final := absVec.map (fun v => v / g)
      if A.all (fun row => rowDotZero row final) then
        some ⟨final.take leftLen, final.drop leftLen⟩
      else none

/-- `analyzeBalanceability` from the second version of `solver.ts`. -/
def analyzeBalanceability (leftFormulas rightFormulas : List String)
    (countFn : String → Records) : Except String AnalyzeRes :=
  if (buildElementMatrix leftFormulas rightFormulas countFn).A.length = 0
      ∨ ((buildElementMatrix leftFormulas rightFormulas countFn).A.headD []).length = 0
  then pure ⟨false, 0, none⟩
  else
    (solveRationalForLastColumn
        (buildElementMatrix leftFormulas rightFormulas countFn).A).bind fun res =>
    match res with
    | none => pure ⟨false, 0, none⟩
    | some raw =>
      match fracsToIntegerCoeffs raw leftFormulas.length rightFormulas.length
          (buildElementMatrix leftFormulas rightFormulas countFn).A with
      | none => pure ⟨false, 0, none⟩
      | some s => pure ⟨true, 1, some s⟩

/-- `solveEquation` from the second version of `solver.ts`:
`if (!balanceableAllSpecies || !suggestion) return null`. -/
def solveEquation (leftFormulas rightFormulas : List String)
    (countFn : String → Records) : Except String (Option Coeffs) :=
  (analyzeBalanceability leftFormulas rightFormulas countFn).bind fun r =>
  if r.balanceableAllSpecies then pure r.suggestion else pure none

end RationalSolver

/-- Lift a predicate on numbers to the numeric payload of a token
(element multiplicity or standalone integer). -/
def tokPred (P : ℤ → Prop) : Token → Prop
  | Token.elem _ n => P n
  | Token.num n => P n
  | _ => True

/-! ## Lemmas about the formula evaluator -/

/-- Congruence of `Option.bind` in its function argument. -/
theorem optBind_congr {α β : Type} {o : Option α} {f g : α → Option β}
    (h : ∀ a, f a = g a) : o.bind f = o.bind g := by
  cases o with
  | none => rfl
  | some a => exact h a

/-- The evaluator is independent of the step budget whenever the budget
covers the token-list length (each step consumes at least one token). -/
theorem goTok_fuel_congr : ∀ (ts : List Token) (st : List Counts) (f₁ f₂ : ℕ),
    ts.length ≤ f₁ → ts.length ≤ f₂ → goTok f₁ ts st = goTok f₂ ts st
  | [], st, f₁, f₂, _, _ => by cases f₁ <;> cases f₂ <;> rfl
  | _ :: _, _, 0, _, h₁, _ => absurd h₁ (by simp)
  | _ :: _, _, _ + 1, 0, _, h₂ => absurd h₂ (by simp)
  | Token.elem s n :: rest, st, g₁ + 1, g₂ + 1, h₁, h₂ => by
    have hr₁ : rest.length ≤ g₁ := by simp only [List.length_cons] at h₁; omega
    have hr₂ : rest.length ≤ g₂ := by simp only [List.length_cons] at h₂; omega
    show (mergeIntoTop st [(s, n)]).bind (goTok g₁ rest)
        = (mergeIntoTop st [(s, n)]).bind (goTok g₂ rest)
    exact optBind_congr fun st2 => goTok_fuel_congr rest st2 g₁ g₂ hr₁ hr₂
  | Token.paren c :: rest, st, g₁ + 1, g₂ + 1, h₁, h₂ => by
    have hr₁ : rest.length ≤ g₁ := by simp only [List.length_cons] at h₁; omega
    have hr₂ : rest.length ≤ g₂ := by simp only [List.length_cons] at h₂; omega
    simp only [goTok]
    by_cases hco : c ∈ openerChars
    · rw [if_pos hco, if_pos hco]
      exact goTok_fuel_congr rest _ g₁ g₂ hr₁ hr₂
    · rw [if_neg hco, if_neg hco]
      by_cases hcc : c ∈ closerChars
      · rw [if_pos hcc, if_pos hcc]
        cases st with
        | nil => rfl
        | cons group st' =>
          cases rest with
          | nil =>
            show (mergeIntoTop st' (scaleEntries 1 group)).bind (goTok g₁ [])
                = (mergeIntoTop st' (scaleEntries 1 group)).bind (goTok g₂ [])
            exact optBind_congr fun st2 => goTok_fuel_congr [] st2 g₁ g₂ (by simp) (by simp)
          | cons t' rest' =>
            have hr₁' : rest'.length ≤ g₁ := by simp only [List.length_cons] at hr₁; omega
            have hr₂' : rest'.length ≤ g₂ := by simp only [List.length_cons] at hr₂; omega
            cases t' with
            | num mult =>
              show (mergeIntoTop st' (scaleEntries mult group)).bind (goTok g₁ rest')
                  = (mergeIntoTop st' (scaleEntries mult group)).bind (goTok g₂ rest')
              exact optBind_congr fun st2 => goTok_fuel_congr rest' st2 g₁ g₂ hr₁' hr₂'
            | dot =>
              show (mergeIntoTop st' (scaleEntries 1 group)).bind (goTok g₁ (Token.dot :: rest'))
                  = (mergeIntoTop st' (scaleEntries 1 group)).bind (goTok g₂ (Token.dot :: rest'))
              exact optBind_congr fun st2 => goTok_fuel_congr _ st2 g₁ g₂ hr₁ hr₂
            | paren c' =>
              show (mergeIntoTop st' (scaleEntries 1 group)).bind (goTok g₁ (Token.paren c' :: rest'))
                  = (mergeIntoTop st' (scaleEntries 1 group)).bind (goTok g₂ (Token.paren c' :: rest'))
              exact optBind_congr fun st2 => goTok_fuel_congr _ st2 g₁ g₂ hr₁ hr₂
            | elem s' n' =>
              show (mergeIntoTop st' (scaleEntries 1 group)).bind (goTok g₁ (Token.elem s' n' :: rest'))
                  = (mergeIntoTop st' (scaleEntries 1 group)).bind (goTok g₂ (Token.elem s' n' :: rest'))
              exact optBind_congr fun st2 => goTok_fuel_congr _ st2 g₁ g₂ hr₁ hr₂
      · rw [if_neg hcc, if_neg hcc]
        exact goTok_fuel_congr rest st g₁ g₂ hr₁ hr₂
  | Token.dot :: rest, st, g₁ + 1, g₂ + 1, h₁, h₂ => by
    have hr₁ : rest.length ≤ g₁ := by simp only [List.length_cons] at h₁; omega
    have hr₂ : rest.length ≤ g₂ := by simp only [List.length_cons] at h₂; omega
    cases rest with
    | nil => exact goTok_fuel_congr [] st g₁ g₂ (by simp) (by simp)
    | cons t' rest' =>
      have hr₁' : rest'.length ≤ g₁ := by simp only [List.length_cons] at hr₁; omega
      have hr₂' : rest'.length ≤ g₂ := by simp only [List.length_cons] at hr₂; omega
      cases t' with
      | num n =>
        show (goTok g₁ rest' [([] : Counts)]).bind _
            = (goTok g₂ rest' [([] : Counts)]).bind _
        rw [goTok_fuel_congr rest' [([] : Counts)] g₁ g₂ hr₁' hr₂']
      | dot => exact goTok_fuel_congr _ st g₁ g₂ hr₁ hr₂
      | paren c' => exact goTok_fuel_congr _ st g₁ g₂ hr₁ hr₂
      | elem s' n' => exact goTok_fuel_congr _ st g₁ g₂ hr₁ hr₂
  | Token.num n :: rest, st, g₁ + 1, g₂ + 1, h₁, h₂ => by
    have hr₁ : rest.length ≤ g₁ := by simp only [List.length_cons] at h₁; omega
    have hr₂ : rest.length ≤ g₂ := by simp only [List.length_cons] at h₂; omega
    cases rest with
    | nil => exact goTok_fuel_congr [] st g₁ g₂ (by simp) (by simp)
    | cons t' rest' =>
      have hr₁' : rest'.length ≤ g₁ := by simp only [List.length_cons] at hr₁; omega
      have hr₂' : rest'.length ≤ g₂ := by simp only [List.length_cons] at hr₂; omega
      cases t' with
      | elem s' cnt =>
        show (mergeIntoTop st [(s', cnt * n)]).bind (goTok g₁ rest')
            = (mergeIntoTop st [(s', cnt * n)]).bind (goTok g₂ rest')
        exact optBind_congr fun st2 => goTok_fuel_congr rest' st2 g₁ g₂ hr₁' hr₂'
      | paren c' =>
        simp only [goTok]
        by_cases hco : c' ∈ openerChars
        · rw [if_pos hco, if_pos hco]
          have ht₁ : ((Token.paren c' :: rest').take
              (findCloseRel (Token.paren c' :: rest') 0)).length ≤ g₁ :=
            le_trans (List.length_take_le' _ _) hr₁
          have ht₂ : ((Token.paren c' :: rest').take
              (findCloseRel (Token.paren c' :: rest') 0)).length ≤ g₂ :=
            le_trans (List.length_take_le' _ _) hr₂
          have hd₁ : ((Token.paren c' :: rest').drop
              (findCloseRel (Token.paren c' :: rest') 0)).length ≤ g₁ := by
            rw [List.length_drop]; omega
          have hd₂ : ((Token.paren c' :: rest').drop
              (findCloseRel (Token.paren c' :: rest') 0)).length ≤ g₂ := by
            rw [List.length_drop]; omega
          rw [goTok_fuel_congr ((Token.paren c' :: rest').take
            (findCloseRel (Token.paren c' :: rest') 0)) [([] : Counts)] g₁ g₂ ht₁ ht₂]
          exact optBind_congr fun sub => optBind_congr fun st2 =>
            goTok_fuel_congr _ st2 g₁ g₂ hd₁ hd₂
        · rw [if_neg hco, if_neg hco]
          exact goTok_fuel_congr _ st g₁ g₂ hr₁ hr₂
      | dot => exact goTok_fuel_congr _ st g₁ g₂ hr₁ hr₂
      | num n' => exact goTok_fuel_congr _ st g₁ g₂ hr₁ hr₂
termination_by ts => ts.length
decreasing_by all_goals
  (subst_vars
   first
    | omega
    | (simp only [List.length_cons, List.length_nil, List.length_take, List.length_drop]; omega))

/-- A closing bracket is not an opening bracket. -/
theorem closer_not_opener {c : Char} (h : c ∈ closerChars) : c ∉ openerChars := by
  fin_cases h <;> decide

/-! ## Lemmas about equation splitting -/

/-- Splitting on the arrow yields one more chunk than there are arrow
occurrences. -/
theorem splitArrow_length : ∀ l, (splitArrow l).length = arrowCount l + 1 := by
  intro l
  induction l using splitArrow.induct with
  | case1 => rfl
  | case2 rest ih => simp only [splitArrow, arrowCount, List.length_cons]; omega
  | case3 c rest h hnil ih => rw [hnil] at ih; simp at ih
  | case4 c rest h chunk chunks hcons ih =>
    rw [splitArrow.eq_3 c rest h, arrowCount.eq_3 c rest h, hcons]
    rw [hcons] at ih
    simpa using ih

/-- The head of a whitespace-stripped list is not whitespace. -/
theorem dropWhile_ws_head : ∀ (l : List Char) (c : Char) (cs : List Char),
    l.dropWhile isWsChar = c :: cs → isWsChar c = false := by
  intro l
  induction l with
  | nil => intro c cs h; simp [List.dropWhile] at h
  | cons a as ih =>
    intro c cs h
    rw [List.dropWhile_cons] at h
    by_cases ha : isWsChar a
    · rw [if_pos ha] at h; exact ih c cs h
    · rw [if_neg ha] at h
      cases h
      simpa using ha

/-- Stripping leading whitespace is idempotent. -/
theorem dropWhile_ws_idem (l : List Char) :
    (l.dropWhile isWsChar).dropWhile isWsChar = l.dropWhile isWsChar := by
  cases h : l.dropWhile isWsChar with
  | nil => rfl
  | cons c cs =>
    rw [List.dropWhile_cons, if_neg (by simp [dropWhile_ws_head l c cs h])]

/-- Stripping trailing whitespace is idempotent. -/
theorem dropEndWs_idem (l : List Char) : dropEndWs (dropEndWs l) = dropEndWs l := by
  unfold dropEndWs
  rw [List.reverse_reverse, dropWhile_ws_idem]

/-- Stripping trailing whitespace yields a prefix of the input. -/
theorem dropEndWs_prefix (l : List Char) : ∃ n, dropEndWs l = l.take n := by
  have h : ∃ n, l.reverse.dropWhile isWsChar = l.reverse.drop n := by
    induction l.reverse with
    | nil => exact ⟨0, rfl⟩
    | cons a as ih =>
      rw [List.dropWhile_cons]
      by_cases ha : isWsChar a
      · obtain ⟨n, hn⟩ := ih
        exact ⟨n + 1, by rw [if_pos ha, hn]; rfl⟩
      · exact ⟨0, by rw [if_neg ha]; rfl⟩
  obtain ⟨n, hn⟩ := h
  refine ⟨l.length - n, ?_⟩
  rw [dropEndWs, hn, List.reverse_drop, List.reverse_reverse, List.length_reverse]

/-- `trim` is idempotent. -/
theorem trimL_idem (l : List Char) : trimL (trimL l) = trimL l := by
  unfold trimL
  have hdw : (dropEndWs (l.dropWhile isWsChar)).dropWhile isWsChar
      = dropEndWs (l.dropWhile isWsChar) := by
    cases hm : l.dropWhile isWsChar with
    | nil => simp [dropEndWs, List.dropWhile]
    | cons c cs =>
      obtain ⟨n, hn⟩ := dropEndWs_prefix (c :: cs)
      rw [hn]
      cases n with
      | zero => rfl
      | succ n' =>
        rw [List.take_succ_cons]
        rw [List.dropWhile_cons, if_neg (by simp [dropWhile_ws_head l c cs hm])]
  rw [hdw, dropEndWs_idem]

/-! ## Claim theorem: equation splitting -/

/-- C4: `splitEquation` returns the sentinel `null` exactly when arrow
normalization does not leave exactly one canonical arrow occurrence,
and never throws (it is a total function of the input); when it returns
a result, each side consists of the `+`-separated chunks, trimmed, with
empty chunks dropped — so every returned chunk is nonempty and is its
own trim.  Concretely,
`splitEquation "C3H8 + O2 -> CO2 + H2O" = {left: [C3H8, O2], right: [CO2, H2O]}`
and `splitEquation "H2 + O2 CO2 + H2O" = null`. -/
theorem c4_split_equation_null_iff :
    (∀ eqn : String,
      splitEquation eqn = none ↔ arrowCount (normalizeArrow eqn).toList ≠ 1)
    ∧ (∀ (eqn : String) (r : SplitEq), splitEquation eqn = some r →
        ∀ x ∈ r.left ++ r.right, x ≠ "" ∧ trimS x = x)
    ∧ splitEquation "C3H8 + O2 -> CO2 + H2O" = some ⟨["C3H8", "O2"], ["CO2", "H2O"]⟩
    ∧ splitEquation "H2 + O2 CO2 + H2O" = none := by
  refine ⟨?_, ?_, by decide, by decide⟩
  · intro eqn
    have hlen := splitArrow_length (normalizeArrow eqn).toList
    unfold splitEquation
    cases hp : splitArrow (normalizeArrow eqn).toList with
    | nil => rw [hp] at hlen; simp at hlen
    | cons a tl =>
      cases tl with
      | nil =>
        rw [hp] at hlen
        simp only [List.length_cons, List.length_nil] at hlen
        constructor
        · intro _; omega
        · intro _; rfl
      | cons b tl2 =>
        cases tl2 with
        | nil =>
          rw [hp] at hlen
          simp only [List.length_cons, List.length_nil] at hlen
          constructor
          · intro h; exact absurd h (by simp)
          · intro h; omega
        | cons d tl3 =>
          rw [hp] at hlen
          simp only [List.length_cons] at hlen
          constructor
          · intro _; omega
          · intro _; rfl
  · intro eqn r hr x hx
    have hside : ∀ (side : List Char), ∀ y ∈ sideChunks side, y ≠ "" ∧ trimS y = y := by
      intro side y hy
      unfold sideChunks at hy
      rw [List.mem_filter] at hy
      obtain ⟨hymem, hynne⟩ := hy
      rw [List.mem_map] at hymem
      obtain ⟨c, _, hc⟩ := hymem
      constructor
      · simpa using hynne
      · rw [← hc]
        show String.mk (trimL (String.mk (trimL c)).toList) = String.mk (trimL c)
        have : (String.mk (trimL c)).toList = trimL c := rfl
        rw [this, trimL_idem]
    unfold splitEquation at hr
    cases hp : splitArrow (normalizeArrow eqn).toList with
    | nil => rw [hp] at hr; exact absurd hr (by simp)
    | cons a tl =>
      cases tl with
      | nil => rw [hp] at hr; exact absurd hr (by simp)
      | cons b tl2 =>
        cases tl2 with
        | nil =>
          rw [hp] at hr
          simp only [Option.some_inj] at hr
          subst hr
          simp only [List.mem_append] at hx
          rcases hx with hx | hx
          · exact hside a x hx
          · exact hside b x hx
        | cons d tl3 => rw [hp] at hr; exact absurd hr (by simp)

/-- C4 witness: instance of the hypothesis-bearing part at a concrete
input. -/
theorem c4_split_equation_null_iff_witness :
    ("C3H8" : String) ≠ "" ∧ trimS "C3H8" = "C3H8" :=
  c4_split_equation_null_iff.2.1 "C3H8 + O2 -> CO2 + H2O"
    ⟨["C3H8", "O2"], ["CO2", "H2O"]⟩ (by decide) "C3H8" (by decide)

/-! ## Lemmas about the entry sort -/

/-- Totality of the symbol order. -/
theorem lexLe_total : ∀ a b : List Char, lexLe a b = true ∨ lexLe b a = true := by
  intro a
  induction a with
  | nil => intro b; left; rfl
  | cons x xs ih =>
    intro b
    cases b with
    | nil => right; rfl
    | cons y ys =>
      simp only [lexLe]
      rcases lt_trichotomy x y with h | h | h
      · left; rw [if_pos h]
      · subst h
        simp only [if_neg (lt_irrefl x)]
        exact ih ys
      · right; rw [if_pos h]

/-- Transitivity of the symbol order. -/
theorem lexLe_trans : ∀ a b c : List Char,
    lexLe a b = true → lexLe b c = true → lexLe a c = true := by
  intro a
  induction a with
  | nil => intro b c _ _; rfl
  | cons x xs ih =>
    intro b c hab hbc
    cases b with
    | nil => simp [lexLe] at hab
    | cons y ys =>
      cases c with
      | nil => simp [lexLe] at hbc
      | cons z zs =>
        simp only [lexLe] at hab hbc ⊢
        rcases lt_trichotomy x y with hxy | hxy | hxy
        · rcases lt_trichotomy y z with hyz | hyz | hyz
          · rw [if_pos (lt_trans hxy hyz)]
          · subst hyz; rw [if_pos hxy]
          · rw [if_neg (not_lt_of_lt hyz), if_pos hyz] at hbc
            simp at hbc
        · subst hxy
          rcases lt_trichotomy x z with hxz | hxz | hxz
          · rw [if_pos hxz]
          · subst hxz
            rw [if_neg (lt_irrefl x), if_neg (lt_irrefl x)] at hab hbc ⊢
            exact ih ys zs hab hbc
          · rw [if_neg (not_lt_of_lt hxz), if_pos hxz] at hbc
            simp at hbc
        · rw [if_neg (not_lt_of_lt hxy), if_pos hxy] at hab
          simp at hab

/-- Membership in an insertion. -/
theorem mem_insertPair (p x : String × ℤ) :
    ∀ l, x ∈ insertPair p l ↔ x = p ∨ x ∈ l := by
  intro l
  induction l with
  | nil => simp [insertPair]
  | cons q qs ih =>
    simp only [insertPair]
    by_cases h : lexLe p.1.toList q.1.toList
    · rw [if_pos h]; simp [or_comm, or_left_comm]
    · rw [if_neg h]
      simp only [List.mem_cons, ih]
      tauto

/-- Insertion preserves sortedness. -/
theorem insertPair_pairwise (p : String × ℤ) :
    ∀ l, l.Pairwise (fun a b => lexLe a.1.toList b.1.toList = true) →
      (insertPair p l).Pairwise (fun a b => lexLe a.1.toList b.1.toList = true) := by
  intro l
  induction l with
  | nil => intro _; simp [insertPair]
  | cons q qs ih =>
    intro hs
    rw [List.pairwise_cons] at hs
    obtain ⟨hq, hqs⟩ := hs
    simp only [insertPair]
    by_cases h : lexLe p.1.toList q.1.toList
    · rw [if_pos h]
      rw [List.pairwise_cons]
      constructor
      · intro b hb
        rcases List.mem_cons.mp hb with hb | hb
        · subst hb; exact h
        · exact lexLe_trans _ _ _ h (hq b hb)
      · rw [List.pairwise_cons]; exact ⟨hq, hqs⟩
    · rw [if_neg h]
      rw [List.pairwise_cons]
      constructor
      · intro b hb
        rcases (mem_insertPair p b qs).mp hb with hb | hb
        · subst hb
          rcases lexLe_total b.1.toList q.1.toList with ht | ht
          · exact absurd ht h
          · exact ht
        · exact hq b hb
      · exact ih hqs

/-- The entry sort produces a key-sorted list. -/
theorem sortPairs_pairwise : ∀ l : List (String × ℤ),
    (sortPairs l).Pairwise (fun a b => lexLe a.1.toList b.1.toList = true) := by
  intro l
  induction l with
  | nil => simp [sortPairs]
  | cons p ps ih => exact insertPair_pairwise p _ ih

/-- Insertion is a permutation of consing. -/
theorem insertPair_perm (p : String × ℤ) : ∀ l, List.Perm (insertPair p l) (p :: l) := by
  intro l
  induction l with
  | nil => rfl
  | cons q qs ih =>
    simp only [insertPair]
    by_cases h : lexLe p.1.toList q.1.toList
    · rw [if_pos h]
    · rw [if_neg h]
      exact (ih.cons q).trans (List.Perm.swap p q qs)

/-- The entry sort permutes the entries. -/
theorem sortPairs_perm : ∀ l : List (String × ℤ), List.Perm (sortPairs l) l := by
  intro l
  induction l with
  | nil => rfl
  | cons p ps ih => exact (insertPair_perm p _).trans (ih.cons p)

/-! ## Lemmas about map update and lookup -/

/-- After replacing the `k`-keyed entry, the first `k` match is the new
entry (assuming some entry has key `k`). -/
theorem find?_replace_of_any (k : String) (v : ℤ) :
    ∀ m : Records, m.any (fun p => p.1 = k) = true →
      (m.map (fun p => if p.1 = k then (k, v) else p)).find?
        (fun p => p.1 = k) = some (k, v) := by
  intro m
  induction m with
  | nil => intro h; simp at h
  | cons a m ih =>
    intro h
    by_cases ha : a.1 = k
    · simp only [List.map_cons, if_pos ha]
      rw [List.find?_cons_of_pos _ (by simp)]
    · simp only [List.map_cons, if_neg ha]
      rw [List.find?_cons_of_neg _ (by simpa using ha)]
      apply ih
      simp only [List.any_cons] at h
      rcases Bool.or_eq_true_iff.mp h with h | h
      · exact absurd (by simpa using h) ha
      · exact h

/-- Appending the fresh `(k, v)` entry makes it the first `k` match
(assuming no entry had key `k`). -/
theorem find?_append_single_of_not_any (k : String) (v : ℤ) :
    ∀ m : Records, m.any (fun p => p.1 = k) = false →
      (m ++ [(k, v)]).find? (fun p => p.1 = k) = some (k, v) := by
  intro m
  induction m with
  | nil => intro _; rw [List.nil_append, List.find?_cons_of_pos _ (by simp)]
  | cons a m ih =>
    intro h
    simp only [List.any_cons, Bool.or_eq_false_iff] at h
    rw [List.cons_append, List.find?_cons_of_neg _ (by simpa using h.1)]
    exact ih h.2

/-- `map.get(k)` after `map.set(k, v)` is `v`. -/
theorem mapGetD_mapSet_self (m : Records) (k : String) (v : ℤ) :
    mapGetD (mapSet m k v) k = v := by
  unfold mapSet mapGetD
  by_cases h : m.any (fun p => p.1 = k)
  · rw [if_pos h, find?_replace_of_any k v m h]; rfl
  · rw [if_neg h, find?_append_single_of_not_any k v m (Bool.eq_false_iff.mpr h)]; rfl

/-- Replacing the `k`-keyed entry leaves lookups of other keys alone. -/
theorem find?_replace_ne (k k' : String) (v : ℤ) (hk : k' ≠ k) :
    ∀ m : Records,
      (m.map (fun p => if p.1 = k then (k, v) else p)).find? (fun p => p.1 = k')
        = m.find? (fun p => p.1 = k') := by
  intro m
  induction m with
  | nil => rfl
  | cons a m ih =>
    by_cases ha : a.1 = k
    · simp only [List.map_cons, if_pos ha]
      rw [List.find?_cons_of_neg _ (by simp only [decide_eq_true_eq]; exact Ne.symm hk),
        List.find?_cons_of_neg _ (by simp only [decide_eq_true_eq, ha]; exact Ne.symm hk)]
      exact ih
    · simp only [List.map_cons, if_neg ha]
      by_cases ha' : a.1 = k'
      · rw [List.find?_cons_of_pos _ (by simpa using ha'),
          List.find?_cons_of_pos _ (by simpa using ha')]
      · rw [List.find?_cons_of_neg _ (by simpa using ha'),
          List.find?_cons_of_neg _ (by simpa using ha')]
        exact ih

/-- `map.get(k')` after `map.set(k, v)` for `k' ≠ k` is unchanged. -/
theorem mapGetD_mapSet_ne (m : Records) (k k' : String) (v : ℤ) (hk : k' ≠ k) :
    mapGetD (mapSet m k v) k' = mapGetD m k' := by
  unfold mapSet mapGetD
  by_cases h : m.any (fun p => p.1 = k)
  · rw [if_pos h, find?_replace_ne k k' v hk m]
  · rw [if_neg h, List.find?_append]
    cases hf : m.find? (fun p => decide (p.1 = k')) with
    | some p => rfl
    | none =>
      rw [Option.none_or,
        List.find?_cons_of_neg _ (by simp only [decide_eq_true_eq]; exact Ne.symm hk)]
      rfl

/-- A key absent from a record looks up to the 0 default. -/
theorem mapGetD_eq_zero_of_not_mem (m : Records) (k : String)
    (h : k ∉ m.map Prod.fst) : mapGetD m k = 0 := by
  unfold mapGetD
  rw [List.find?_eq_none.mpr ?_]
  · rfl
  · intro p hp
    simp only [decide_eq_true_eq]
    intro hpk
    exact h (List.mem_map.mpr ⟨p, hp, hpk⟩)

/-- `map.set` preserves distinctness of keys. -/
theorem keysNodup_mapSet (m : Records) (k : String) (v : ℤ)
    (h : keysNodup m) : keysNodup (mapSet m k v) := by
  unfold mapSet keysNodup
  by_cases ha : m.any (fun p => p.1 = k)
  · rw [if_pos ha]
    have : (m.map (fun p => if p.1 = k then (k, v) else p)).map Prod.fst
        = m.map Prod.fst := by
      rw [List.map_map]
      apply List.map_congr_left
      intro p _
      by_cases hp : p.1 = k
      · simp [hp]
      · simp [hp]
    rw [this]
    exact h
  · rw [if_neg ha]
    rw [List.map_append]
    rw [List.nodup_append]
    refine ⟨h, by simp, ?_⟩
    intro x hx
    simp only [List.map_cons, List.map_nil, List.mem_singleton]
    intro hxk
    rw [List.mem_map] at hx
    obtain ⟨p, hp, hpk⟩ := hx
    have hka : m.any (fun q => q.1 = k) = true := by
      rw [List.any_eq_true]
      refine ⟨p, hp, ?_⟩
      simp only [decide_eq_true_eq]
      rw [hpk, hxk]
    exact absurd hka (by simpa using ha)

/-- The accumulation loop of `sumCounts` adds the looked-up values,
entrywise, for records with distinct keys. -/
theorem addEntries_getD : ∀ (obj : Records), keysNodup obj →
    ∀ (out : Records) (k : String),
      mapGetD (addEntries out obj) k = mapGetD out k + mapGetD obj k := by
  intro obj
  induction obj with
  | nil => intro _ out k; show mapGetD out k = mapGetD out k + mapGetD [] k; simp [mapGetD]
  | cons a rest ih =>
    intro hobj out k
    have hrest : keysNodup rest := by
      unfold keysNodup at hobj ⊢
      simp only [List.map_cons, List.nodup_cons] at hobj
      exact hobj.2
    have hnotin : a.1 ∉ rest.map Prod.fst := by
      unfold keysNodup at hobj
      simp only [List.map_cons, List.nodup_cons] at hobj
      exact hobj.1
    show mapGetD (addEntries (mapSet out a.1 (mapGetD out a.1 + a.2)) rest) k = _
    rw [ih hrest]
    by_cases hk : k = a.1
    · subst hk
      rw [mapGetD_mapSet_self, mapGetD_eq_zero_of_not_mem rest a.1 hnotin]
      have hcons : mapGetD (a :: rest) a.1 = a.2 := by
        unfold mapGetD
        rw [List.find?_cons_of_pos _ (by simp)]
        rfl
      rw [hcons]
      ring
    · rw [mapGetD_mapSet_ne _ _ _ _ hk]
      have hcons : mapGetD (a :: rest) k = mapGetD rest k := by
        unfold mapGetD
        rw [List.find?_cons_of_neg _ (by simp only [decide_eq_true_eq]; exact Ne.symm hk)]
      rw [hcons]

/-- The accumulation loop preserves key distinctness. -/
theorem keysNodup_addEntries : ∀ (obj out : Records), keysNodup out →
    keysNodup (addEntries out obj) := by
  intro obj
  induction obj with
  | nil => intro out h; exact h
  | cons a rest ih =>
    intro out h
    exact ih _ (keysNodup_mapSet _ _ _ h)

/-- In a record with distinct keys, an entry is determined by its key. -/
theorem entry_unique : ∀ (l : Records), keysNodup l →
    ∀ p q : String × ℤ, p ∈ l → q ∈ l → p.1 = q.1 → p = q := by
  intro l
  induction l with
  | nil => intro _ p q hp; simp at hp
  | cons a tl ih =>
    intro hn p q hp hq hpq
    unfold keysNodup at hn
    simp only [List.map_cons, List.nodup_cons] at hn
    rcases List.mem_cons.mp hp with hp | hp <;> rcases List.mem_cons.mp hq with hq | hq
    · rw [hp, hq]
    · exfalso
      apply hn.1
      rw [List.mem_map]
      exact ⟨q, hq, by rw [← hpq, hp]⟩
    · exfalso
      apply hn.1
      rw [List.mem_map]
      exact ⟨p, hp, by rw [hpq, hq]⟩
    · exact ih hn.2 p q hp hq hpq

/-- Lookup in a record with distinct keys is invariant under
permutation of the entries. -/
theorem mapGetD_perm {l l' : Records} (hperm : List.Perm l l')
    (hn : keysNodup l) (k : String) : mapGetD l k = mapGetD l' k := by
  unfold mapGetD
  cases hf : l.find? (fun p => decide (p.1 = k)) with
  | none =>
    have hnone : l'.find? (fun p => decide (p.1 = k)) = none := by
      rw [List.find?_eq_none]
      intro p hp
      exact List.find?_eq_none.mp hf p (hperm.mem_iff.mpr hp)
    rw [hnone]
  | some p =>
    have hpl : p ∈ l := List.mem_of_find?_eq_some hf
    have hpk : p.1 = k := by simpa using List.find?_some hf
    cases hf' : l'.find? (fun p => decide (p.1 = k)) with
    | none =>
      exfalso
      have := List.find?_eq_none.mp hf' p (hperm.mem_iff.mp hpl)
      simp [hpk] at this
    | some q =>
      have hql : q ∈ l := hperm.mem_iff.mpr (List.mem_of_find?_eq_some hf')
      have hqk : q.1 = k := by simpa using List.find?_some hf'
      rw [entry_unique l hn p q hpl hql (hpk.trans hqk.symm)]

/-! ## Claim theorem: sumCounts additivity -/

/-- C8: for records `a` and `b` (distinct keys, as JavaScript objects
have) and any element `e` appearing in `a` or in `b`,
`sumCounts([a, b])[e] = (a[e] ?? 0) + (b[e] ?? 0)`. -/
theorem c8_sum_counts_additivity :
    ∀ (a b : Records) (e : String), keysNodup a → keysNodup b →
      (e ∈ a.map Prod.fst ∨ e ∈ b.map Prod.fst) →
      mapGetD (sumCounts [a, b]) e = mapGetD a e + mapGetD b e := by
  intro a b e ha hb _
  have hpre : mapGetD (addEntries (addEntries [] a) b) e
      = mapGetD a e + mapGetD b e := by
    rw [addEntries_getD b hb, addEntries_getD a ha]
    have h0 : mapGetD [] e = 0 := rfl
    rw [h0]
    ring
  have hnn : keysNodup (addEntries (addEntries [] a) b) :=
    keysNodup_addEntries b _ (keysNodup_addEntries a [] (by simp [keysNodup]))
  have hperm := sortPairs_perm (addEntries (addEntries [] a) b)
  show mapGetD (sortPairs (addEntries (addEntries [] a) b)) e = _
  rw [← mapGetD_perm hperm.symm hnn e, hpre]

/-- C8 witness: instance at concrete records. -/
theorem c8_sum_counts_additivity_witness :
    mapGetD (sumCounts [[(("H" : String), (2 : ℤ))], [("H", 1), ("O", 3)]]) "H"
      = mapGetD [(("H" : String), (2 : ℤ))] "H" + mapGetD [(("H" : String), (1 : ℤ)), ("O", 3)] "H" :=
  c8_sum_counts_additivity [("H", 2)] [("H", 1), ("O", 3)] "H"
    (by simp [keysNodup]) (by simp [keysNodup]) (by simp)

/-! ## Count positivity invariants -/

/-- The last element of a list is a member. -/
theorem mem_of_getLast?_eq {α : Type} {l : List α} {a : α}
    (h : l.getLast? = some a) : a ∈ l := by
  obtain ⟨ys, rfl⟩ := List.getLast?_eq_some_iff.mp h
  simp

/-- Entries of an updated map are the new entry or old entries. -/
theorem mem_mapSet (m : Records) (k : String) (v : ℤ) :
    ∀ q ∈ mapSet m k v, q = (k, v) ∨ q ∈ m := by
  intro q hq
  unfold mapSet at hq
  by_cases h : m.any (fun p => p.1 = k)
  · rw [if_pos h] at hq
    rw [List.mem_map] at hq
    obtain ⟨p, hp, hpq⟩ := hq
    by_cases hpk : p.1 = k
    · rw [if_pos hpk] at hpq; left; exact hpq.symm
    · rw [if_neg hpk] at hpq; right; rw [← hpq]; exact hp
  · rw [if_neg h] at hq
    rcases List.mem_append.mp hq with hq | hq
    · right; exact hq
    · left; simpa using hq

/-- The looked-up value is the 0 default or an entry value. -/
theorem mapGetD_zero_or_mem (m : Records) (k : String) :
    mapGetD m k = 0 ∨ ∃ p ∈ m, mapGetD m k = p.2 := by
  unfold mapGetD
  cases hf : m.find? (fun p => decide (p.1 = k)) with
  | none => left; rfl
  | some p => right; exact ⟨p, List.mem_of_find?_eq_some hf, rfl⟩

section PredInvariant

variable {P : ℤ → Prop}

/-- `pushCounts` preserves an entry predicate closed under adding a
looked-up (possibly absent, hence zero) value. -/
theorem pushCounts_pred (hadd : ∀ a b : ℤ, (a = 0 ∨ P a) → P b → P (a + b))
    (m : Counts) (k : String) (n : ℤ) (hm : ∀ p ∈ m, P p.2) (hn : P n) :
    ∀ p ∈ pushCounts m k n, P p.2 := by
  intro p hp
  rcases mem_mapSet m k (mapGetD m k + n) p hp with hpe | hpe
  · rw [hpe]
    rcases mapGetD_zero_or_mem m k with hg | ⟨q, hq, hg⟩
    · exact hadd _ _ (Or.inl hg) hn
    · exact hadd _ _ (Or.inr (hg ▸ hm q hq)) hn
  · exact hm p hpe

/-- The merge loop of the evaluator preserves the entry predicate. -/
theorem foldl_pushCounts_pred (hadd : ∀ a b : ℤ, (a = 0 ∨ P a) → P b → P (a + b)) :
    ∀ (xs top : Counts), (∀ p ∈ top, P p.2) → (∀ p ∈ xs, P p.2) →
      ∀ p ∈ xs.foldl (fun t q => pushCounts t q.1 q.2) top, P p.2 := by
  intro xs
  induction xs with
  | nil => intro top htop _ p hp; exact htop p hp
  | cons x xs ih =>
    intro top htop hxs p hp
    refine ih (pushCounts top x.1 x.2) ?_ ?_ p hp
    · exact pushCounts_pred hadd top x.1 x.2 htop (hxs x (List.mem_cons_self x xs))
    · intro q hq; exact hxs q (List.mem_cons_of_mem x hq)

/-- `mergeIntoTop` preserves the stack predicate. -/
theorem mergeIntoTop_pred (hadd : ∀ a b : ℤ, (a = 0 ∨ P a) → P b → P (a + b))
    (st st2 : List Counts) (xs : Counts)
    (hst : ∀ m ∈ st, ∀ p ∈ m, P p.2) (hxs : ∀ p ∈ xs, P p.2)
    (h : mergeIntoTop st xs = some st2) : ∀ m ∈ st2, ∀ p ∈ m, P p.2 := by
  unfold mergeIntoTop at h
  cases st with
  | nil =>
    by_cases he : xs.isEmpty
    · rw [if_pos he] at h
      cases h
      intro m hm; simp at hm
    · rw [if_neg he] at h; exact absurd h (by simp)
  | cons top rest =>
    cases h
    intro m hm
    rcases List.mem_cons.mp hm with hm | hm
    · rw [hm]
      exact foldl_pushCounts_pred hadd xs top
        (hst top (List.mem_cons_self top rest)) hxs
    · exact hst m (List.mem_cons_of_mem top hm)

/-- Scaling preserves a multiplicative entry predicate. -/
theorem scaleEntries_pred (hmul : ∀ a b : ℤ, P a → P b → P (a * b))
    (mult : ℤ) (g : Counts) (hg : ∀ p ∈ g, P p.2) (hmult : P mult) :
    ∀ p ∈ scaleEntries mult g, P p.2 := by
  intro p hp
  unfold scaleEntries at hp
  rw [List.mem_map] at hp
  obtain ⟨q, hq, hpq⟩ := hp
  rw [← hpq]
  exact hmul _ _ (hg q hq) hmult

/-- Invariant of the evaluator loop: if every token payload satisfies
`P` (with `P 1` for default multipliers, `P` closed under the merge
addition and under multiplication), then every entry of every produced
accumulator satisfies `P`. -/
theorem goTok_pred (hadd : ∀ a b : ℤ, (a = 0 ∨ P a) → P b → P (a + b))
    (hmul : ∀ a b : ℤ, P a → P b → P (a * b)) (hone : P 1) :
    ∀ (fuel : ℕ) (ts : List Token) (st : List Counts) (r : Counts),
      (∀ t ∈ ts, tokPred P t) → (∀ m ∈ st, ∀ p ∈ m, P p.2) →
      goTok fuel ts st = some r → ∀ p ∈ r, P p.2 := by
  intro fuel
  induction fuel with
  | zero =>
    intro ts st r _ hst h
    cases ts with
    | nil => exact hst r (mem_of_getLast?_eq h)
    | cons t rest => exact absurd h (by simp [goTok])
  | succ fuel ih =>
    intro ts st r hts hst h
    cases ts with
    | nil => exact hst r (mem_of_getLast?_eq h)
    | cons t rest =>
      have hts' : ∀ u ∈ rest, tokPred P u := fun u hu => hts u (List.mem_cons_of_mem t hu)
      have htok : tokPred P t := hts t (List.mem_cons_self t rest)
      cases t with
      | elem s n =>
        change (mergeIntoTop st [(s, n)]).bind (goTok fuel rest) = some r at h
        cases hm : mergeIntoTop st [(s, n)] with
        | none => rw [hm] at h; exact absurd h (by simp)
        | some st2 =>
          rw [hm] at h
          refine ih rest st2 r hts' ?_ h
          refine mergeIntoTop_pred hadd st st2 [(s, n)] hst ?_ hm
          intro p hp
          rcases List.mem_singleton.mp hp with rfl
          exact htok
      | paren c =>
        simp only [goTok] at h
        by_cases hco : c ∈ openerChars
        · rw [if_pos hco] at h
          refine ih rest _ r hts' ?_ h
          intro m hm
          rcases List.mem_cons.mp hm with hm | hm
          · rw [hm]; intro p hp; simp at hp
          · exact hst m hm
        · rw [if_neg hco] at h
          by_cases hcc : c ∈ closerChars
          · rw [if_pos hcc] at h
            cases st with
            | nil => exact absurd h (by simp)
            | cons group st' =>
              have hgroup : ∀ p ∈ group, P p.2 :=
                hst group (List.mem_cons_self group st')
              have hst' : ∀ m ∈ st', ∀ p ∈ m, P p.2 :=
                fun m hm => hst m (List.mem_cons_of_mem group hm)
              cases rest with
              | nil =>
                change (mergeIntoTop st' (scaleEntries 1 group)).bind (goTok fuel []) = some r at h
                cases hm : mergeIntoTop st' (scaleEntries 1 group) with
                | none => rw [hm] at h; exact absurd h (by simp)
                | some st2 =>
                  rw [hm] at h
                  refine ih [] st2 r (by simp) ?_ h
                  exact mergeIntoTop_pred hadd st' st2 _ hst'
                    (scaleEntries_pred hmul 1 group hgroup hone) hm
              | cons u rest' =>
                have hts'' : ∀ w ∈ rest', tokPred P w :=
                  fun w hw => hts' w (List.mem_cons_of_mem u hw)
                cases u with
                | num mult =>
                  change (mergeIntoTop st' (scaleEntries mult group)).bind (goTok fuel rest') = some r at h
                  cases hm : mergeIntoTop st' (scaleEntries mult group) with
                  | none => rw [hm] at h; exact absurd h (by simp)
                  | some st2 =>
                    rw [hm] at h
                    refine ih rest' st2 r hts'' ?_ h
                    refine mergeIntoTop_pred hadd st' st2 _ hst' ?_ hm
                    exact scaleEntries_pred hmul mult group hgroup
                      (hts' (Token.num mult) (List.mem_cons_self _ rest'))
                | dot =>
                  change (mergeIntoTop st' (scaleEntries 1 group)).bind
                    (goTok fuel (Token.dot :: rest')) = some r at h
                  cases hm : mergeIntoTop st' (scaleEntries 1 group) with
                  | none => rw [hm] at h; exact absurd h (by simp)
                  | some st2 =>
                    rw [hm] at h
                    refine ih (Token.dot :: rest') st2 r hts' ?_ h
                    exact mergeIntoTop_pred hadd st' st2 _ hst'
                      (scaleEntries_pred hmul 1 group hgroup hone) hm
                | paren c' =>
                  change (mergeIntoTop st' (scaleEntries 1 group)).bind
                    (goTok fuel (Token.paren c' :: rest')) = some r at h
                  cases hm : mergeIntoTop st' (scaleEntries 1 group) with
                  | none => rw [hm] at h; exact absurd h (by simp)
                  | some st2 =>
                    rw [hm] at h
                    refine ih (Token.paren c' :: rest') st2 r hts' ?_ h
                    exact mergeIntoTop_pred hadd st' st2 _ hst'
                      (scaleEntries_pred hmul 1 group hgroup hone) hm
                | elem s' n' =>
                  change (mergeIntoTop st' (scaleEntries 1 group)).bind
                    (goTok fuel (Token.elem s' n' :: rest')) = some r at h
                  cases hm : mergeIntoTop st' (scaleEntries 1 group) with
                  | none => rw [hm] at h; exact absurd h (by simp)
                  | some st2 =>
                    rw [hm] at h
                    refine ih (Token.elem s' n' :: rest') st2 r hts' ?_ h
                    exact mergeIntoTop_pred hadd st' st2 _ hst'
                      (scaleEntries_pred hmul 1 group hgroup hone) hm
          · rw [if_neg hcc] at h
            exact ih rest st r hts' hst h
      | dot =>
        cases rest with
        | nil => exact ih [] st r (by simp) hst h
        | cons u rest' =>
          have hts'' : ∀ w ∈ rest', tokPred P w :=
            fun w hw => hts' w (List.mem_cons_of_mem u hw)
          cases u with
          | num n =>
            change (goTok fuel rest' [([] : Counts)]).bind _ = some r at h
            cases hsub : goTok fuel rest' [([] : Counts)] with
            | none => rw [hsub] at h; exact absurd h (by simp)
            | some sub =>
              rw [hsub] at h
              have hsubP : ∀ p ∈ sub, P p.2 := by
                refine ih rest' [([] : Counts)] sub hts'' ?_ hsub
                intro m hm
                rcases List.mem_singleton.mp hm with rfl
                intro p hp; simp at hp
              change (mergeIntoTop st (scaleEntries n sub)).bind
                (fun st2 => st2.getLast?) = some r at h
              cases hm : mergeIntoTop st (scaleEntries n sub) with
              | none => rw [hm] at h; exact absurd h (by simp)
              | some st2 =>
                rw [hm] at h
                refine mergeIntoTop_pred hadd st st2 _ hst ?_ hm r (mem_of_getLast?_eq h)
                exact scaleEntries_pred hmul n sub hsubP
                  (hts' (Token.num n) (List.mem_cons_self _ rest'))
          | dot => exact ih (Token.dot :: rest') st r hts' hst h
          | paren c' => exact ih (Token.paren c' :: rest') st r hts' hst h
          | elem s' n' => exact ih (Token.elem s' n' :: rest') st r hts' hst h
      | num n =>
        cases rest with
        | nil => exact ih [] st r (by simp) hst h
        | cons u rest' =>
          have hts'' : ∀ w ∈ rest', tokPred P w :=
            fun w hw => hts' w (List.mem_cons_of_mem u hw)
          cases u with
          | elem s' cnt =>
            change (mergeIntoTop st [(s', cnt * n)]).bind (goTok fuel rest') = some r at h
            cases hm : mergeIntoTop st [(s', cnt * n)] with
            | none => rw [hm] at h; exact absurd h (by simp)
            | some st2 =>
              rw [hm] at h
              refine ih rest' st2 r hts'' ?_ h
              refine mergeIntoTop_pred hadd st st2 _ hst ?_ hm
              intro p hp
              rcases List.mem_singleton.mp hp with rfl
              exact hmul _ _ (hts' (Token.elem s' cnt) (List.mem_cons_self _ rest')) htok
          | paren c' =>
            simp only [goTok] at h
            by_cases hco : c' ∈ openerChars
            · rw [if_pos hco] at h
              cases hsub : goTok fuel ((Token.paren c' :: rest').take
                  (findCloseRel (Token.paren c' :: rest') 0)) [([] : Counts)] with
              | none => rw [hsub] at h; exact absurd h (by simp)
              | some sub =>
                rw [hsub] at h
                have hsubP : ∀ p ∈ sub, P p.2 := by
                  refine ih _ [([] : Counts)] sub ?_ ?_ hsub
                  · intro w hw
                    exact hts' w (List.take_subset _ _ hw)
                  · intro m hm
                    rcases List.mem_singleton.mp hm with rfl
                    intro p hp; simp at hp
                change (mergeIntoTop st (scaleEntries n sub)).bind
                  (fun st2 => goTok fuel ((Token.paren c' :: rest').drop
                    (findCloseRel (Token.paren c' :: rest') 0)) st2) = some r at h
                cases hm : mergeIntoTop st (scaleEntries n sub) with
                | none => rw [hm] at h; exact absurd h (by simp)
                | some st2 =>
                  rw [hm] at h
                  refine ih _ st2 r ?_ ?_ h
                  · intro w hw
                    exact hts' w (List.drop_subset _ _ hw)
                  · refine mergeIntoTop_pred hadd st st2 _ hst ?_ hm
                    exact scaleEntries_pred hmul n sub hsubP htok
            · rw [if_neg hco] at h
              exact ih (Token.paren c' :: rest') st r hts' hst h
          | dot => exact ih (Token.dot :: rest') st r hts' hst h
          | num n' => exact ih (Token.num n' :: rest') st r hts' hst h

end PredInvariant

/-- The exact digit-run value is non-negative. -/
theorem digitsToInt_nonneg (ds : List Char) : 0 ≤ digitsToInt ds := by
  unfold digitsToInt
  have haux : ∀ (l : List Char) (acc : ℤ), 0 ≤ acc →
      0 ≤ l.foldl (fun a c => a * 10 + ((c.toNat - 48 : ℕ) : ℤ)) acc := by
    intro l
    induction l with
    | nil => intro acc h; exact h
    | cons c cs ih =>
      intro acc h
      refine ih _ ?_
      show (0 : ℤ) ≤ acc * 10 + ((c.toNat - 48 : ℕ) : ℤ)
      have h1 : (0 : ℤ) ≤ acc * 10 := by positivity
      have h2 : (0 : ℤ) ≤ ((c.toNat - 48 : ℕ) : ℤ) := Int.natCast_nonneg _
      omega
  exact haux ds 0 le_rfl

/-- Every token the tokenizer produces carries a non-negative payload. -/
theorem tokenizeAux_nonneg : ∀ (fuel : ℕ) (cs : List Char),
    ∀ t ∈ tokenizeAux fuel cs, tokPred (fun z => 0 ≤ z) t := by
  intro fuel
  induction fuel with
  | zero =>
    intro cs t ht
    cases cs with
    | nil => simp [tokenizeAux] at ht
    | cons c cs' => simp [tokenizeAux] at ht
  | succ fuel ih =>
    intro cs t ht
    cases cs with
    | nil => simp [tokenizeAux] at ht
    | cons c cs' =>
      simp only [tokenizeAux] at ht
      repeat' split at ht
      all_goals
        first
          | exact ih _ t ht
          | (rcases List.mem_cons.mp ht with rfl | htr
             · first
                 | trivial
                 | exact digitsToInt_nonneg _
                 | (show (0 : ℤ) ≤ 1; omega)
             · first
                 | exact ih _ t htr
                 | simp at htr)

/-! ## Claim theorems: evaluator behavior -/

/-- C5: when the evaluator meets a hydrate-dot token immediately
followed by a standalone integer `N`, it evaluates the entire remaining
token suffix after that integer as one nested sub-formula, multiplies
every resulting entry by `N`, merges it into the top accumulator, and
processes no further tokens at top level (the loop breaks, returning
the root accumulator `stack[0]`); a dot not followed by an integer is a
no-op separator.  Concretely,
`countElementsInFormula "CuSO4·5H2O" = {Cu: 1, H: 10, O: 9, S: 1}`. -/
theorem c5_hydrate_dot_evaluation :
    (∀ (fuel : ℕ) (n : ℤ) (rest : List Token) (st : List Counts),
      rest.length ≤ fuel →
      goTok (fuel + 1) (Token.dot :: Token.num n :: rest) st
        = (tokensToCounts rest).bind fun sub =>
            (mergeIntoTop st (scaleEntries n sub)).bind fun st2 => st2.getLast?)
    ∧ (∀ (fuel : ℕ) (t : Token) (rest : List Token) (st : List Counts),
      (∀ m, t ≠ Token.num m) →
      goTok (fuel + 1) (Token.dot :: t :: rest) st = goTok fuel (t :: rest) st)
    ∧ (∀ (fuel : ℕ) (st : List Counts),
      goTok (fuel + 1) [Token.dot] st = goTok fuel [] st)
    ∧ countElementsInFormula "CuSO4·5H2O"
        = some [("Cu", 1), ("H", 10), ("O", 9), ("S", 1)] := by
  refine ⟨?_, ?_, ?_, by decide⟩
  · intro fuel n rest st hf
    show (goTok fuel rest [([] : Counts)]).bind _ = _
    rw [goTok_fuel_congr rest [([] : Counts)] fuel rest.length hf le_rfl]
    rfl
  · intro fuel t rest st ht
    cases t with
    | dot => rfl
    | paren c => rfl
    | elem s n => rfl
    | num m => exact absurd rfl (ht m)
  · intro fuel st
    rfl

/-- C5 witness: instance of the hypothesis-bearing parts at concrete
inputs. -/
theorem c5_hydrate_dot_evaluation_witness :
    goTok 3 (Token.dot :: Token.num 2 :: [Token.elem "H" 1]) [([] : Counts)]
      = (tokensToCounts [Token.elem "H" 1]).bind fun sub =>
          (mergeIntoTop [([] : Counts)] (scaleEntries 2 sub)).bind fun st2 => st2.getLast? :=
  c5_hydrate_dot_evaluation.1 2 2 [Token.elem "H" 1] [([] : Counts)] (by decide)

/-- C6: a closing group delimiter of any bracket family pops the top
accumulator, multiplies every entry of the popped accumulator by the
immediately following standalone integer (default 1 when absent), and
merges the result by summation into the new top-of-stack accumulator.
Concretely, `countElementsInFormula "Al2(SO4)3" = {Al: 2, O: 12, S: 3}`
and `countElementsInFormula "K4[Fe(CN)6]" = {C: 6, Fe: 1, K: 4, N: 6}`. -/
theorem c6_close_group_evaluation :
    (∀ (fuel : ℕ) (c : Char) (mult : ℤ) (rest : List Token)
      (group top : Counts) (st' : List Counts), c ∈ closerChars →
      goTok (fuel + 1) (Token.paren c :: Token.num mult :: rest) (group :: top :: st')
        = (mergeIntoTop (top :: st') (scaleEntries mult group)).bind (goTok fuel rest))
    ∧ (∀ (fuel : ℕ) (c : Char) (t : Token) (rest : List Token)
      (group top : Counts) (st' : List Counts), c ∈ closerChars →
      (∀ m, t ≠ Token.num m) →
      goTok (fuel + 1) (Token.paren c :: t :: rest) (group :: top :: st')
        = (mergeIntoTop (top :: st') (scaleEntries 1 group)).bind (goTok fuel (t :: rest)))
    ∧ (∀ (fuel : ℕ) (c : Char) (group top : Counts) (st' : List Counts),
      c ∈ closerChars →
      goTok (fuel + 1) [Token.paren c] (group :: top :: st')
        = (mergeIntoTop (top :: st') (scaleEntries 1 group)).bind (goTok fuel []))
    ∧ countElementsInFormula "Al2(SO4)3" = some [("Al", 2), ("O", 12), ("S", 3)]
    ∧ countElementsInFormula "K4[Fe(CN)6]"
        = some [("C", 6), ("Fe", 1), ("K", 4), ("N", 6)] := by
  refine ⟨?_, ?_, ?_, by decide, by decide⟩
  · intro fuel c mult rest group top st' hc
    simp only [goTok]
    rw [if_neg (closer_not_opener hc), if_pos hc]
  · intro fuel c t rest group top st' hc ht
    simp only [goTok]
    rw [if_neg (closer_not_opener hc), if_pos hc]
    cases t with
    | dot => rfl
    | paren c' => rfl
    | elem s n => rfl
    | num m => exact absurd rfl (ht m)
  · intro fuel c group top st' hc
    simp only [goTok]
    rw [if_neg (closer_not_opener hc), if_pos hc]

/-- C6 witness: instance of the hypothesis-bearing parts at concrete
inputs. -/
theorem c6_close_group_evaluation_witness :
    goTok 2 [Token.paren ')', Token.num 3] ([("O", 4)] :: [("S", 1)] :: [])
      = (mergeIntoTop ([("S", 1)] :: []) (scaleEntries 3 [("O", 4)])).bind (goTok 1 []) :=
  c6_close_group_evaluation.1 1 ')' 3 [] [("O", 4)] [("S", 1)] [] (by decide)

/-! ## No-throw analysis of the exact rational solver -/

/-- The solver's `gcd` helper is positive. -/
theorem gcdJS_pos (a b : ℤ) : 0 < gcdJS a b := by
  unfold gcdJS
  by_cases h : (Int.gcd a b : ℤ) = 0
  · rw [if_pos h]; omega
  · rw [if_neg h]
    have hnn : (0 : ℤ) ≤ (Int.gcd a b : ℤ) := Int.natCast_nonneg _
    omega

/-- The solver's `gcd` helper divides its first argument. -/
theorem gcdJS_dvd_left (a b : ℤ) : gcdJS a b ∣ a := by
  unfold gcdJS
  by_cases h : (Int.gcd a b : ℤ) = 0
  · rw [if_pos h]
    exact one_dvd a
  · rw [if_neg h]
    exact Int.gcd_dvd_left

/-- The solver's `gcd` helper divides its second argument. -/
theorem gcdJS_dvd_right (a b : ℤ) : gcdJS a b ∣ b := by
  unfold gcdJS
  by_cases h : (Int.gcd a b : ℤ) = 0
  · rw [if_pos h]
    exact one_dvd b
  · rw [if_neg h]
    exact Int.gcd_dvd_right

/-- An exact quotient of positives is positive. -/
theorem ediv_pos_of_dvd {d g : ℤ} (hd : 0 < d) (hg : 0 < g) (hdvd : g ∣ d) :
    0 < d / g := by
  obtain ⟨k, hk⟩ := hdvd
  have hdg : d / g = k := by
    rw [hk]
    exact Int.mul_ediv_cancel_left k (ne_of_gt hg)
  rw [hdg]
  nlinarith [hk]

namespace RationalSolver

/-- `makeFrac` succeeds on a nonzero denominator and yields a positive
denominator. -/
theorem makeFrac_ok (n d : ℤ) (hd : d ≠ 0) :
    ∃ f, makeFrac n d = .ok f ∧ 0 < f.den := by
  unfold makeFrac
  rw [if_neg hd]
  by_cases hneg : d < 0
  · simp only [if_pos hneg]
    by_cases hn : -n = 0
    · rw [if_pos hn]; exact ⟨⟨0, 1⟩, rfl, by norm_num⟩
    · rw [if_neg hn]
      refine ⟨_, rfl, ?_⟩
      exact ediv_pos_of_dvd (by omega) (gcdJS_pos _ _) (gcdJS_dvd_right _ _)
  · simp only [if_neg hneg]
    by_cases hn : n = 0
    · rw [if_pos hn]; exact ⟨⟨0, 1⟩, rfl, by norm_num⟩
    · rw [if_neg hn]
      refine ⟨_, rfl, ?_⟩
      exact ediv_pos_of_dvd (by omega) (gcdJS_pos _ _) (gcdJS_dvd_right _ _)

/-- `makeFrac` of an integer over 1 is that integer over 1. -/
theorem makeFrac_int (z : ℤ) : makeFrac z 1 = .ok ⟨z, 1⟩ := by
  unfold makeFrac
  rw [if_neg one_ne_zero]
  simp only [if_neg (by omega : ¬(1 : ℤ) < 0)]
  by_cases hz : z = 0
  · rw [if_pos hz, hz]
  · rw [if_neg hz]
    have hg : gcdJS z 1 = 1 := by
      unfold gcdJS
      simp [Int.gcd]
    rw [hg]
    simp

/-- `fAdd` succeeds on positive denominators. -/
theorem fAdd_ok (a b : Frac) (ha : 0 < a.den) (hb : 0 < b.den) :
    ∃ c, fAdd a b = .ok c ∧ 0 < c.den :=
  makeFrac_ok _ _ (by positivity)

/-- `fSub` succeeds on positive denominators. -/
theorem fSub_ok (a b : Frac) (ha : 0 < a.den) (hb : 0 < b.den) :
    ∃ c, fSub a b = .ok c ∧ 0 < c.den :=
  makeFrac_ok _ _ (by positivity)

/-- `fMul` succeeds on positive denominators. -/
theorem fMul_ok (a b : Frac) (ha : 0 < a.den) (hb : 0 < b.den) :
    ∃ c, fMul a b = .ok c ∧ 0 < c.den :=
  makeFrac_ok _ _ (by positivity)

/-- `fDiv` succeeds on a positive denominator and a nonzero divisor
numerator. -/
theorem fDiv_ok (a b : Frac) (ha : 0 < a.den) (hb : b.num ≠ 0) :
    ∃ c, fDiv a b = .ok c ∧ 0 < c.den :=
  makeFrac_ok _ _ (by
    intro h
    rcases mul_eq_zero.mp h with h | h
    · omega
    · exact hb h)

end RationalSolver

/-! ## List indexing utilities -/

/-- An indexed read with default is a member or the default. -/
theorem getD_mem_or {α : Type} (l : List α) (i : ℕ) (d : α) :
    l.getD i d ∈ l ∨ l.getD i d = d := by
  rw [List.getD_eq_getElem?_getD]
  cases h : l[i]? with
  | none => right; rfl
  | some x =>
    left
    have hi : i < l.length := by
      by_contra hc
      rw [List.getElem?_eq_none (by omega)] at h
      exact absurd h (by simp)
    rw [List.getElem?_eq_getElem hi] at h
    have hx : x ∈ l := by
      rw [← Option.some_inj.mp h]
      exact List.getElem_mem hi
    simpa using hx

/-- Writing at an index then reading it back. -/
theorem getD_set_self {α : Type} (l : List α) (i : ℕ) (a d : α)
    (h : i < l.length) : (l.set i a).getD i d = a := by
  simp [List.getD_eq_getElem?_getD, List.getElem?_set_self (by simpa using h)]

/-- Writing at an index leaves other indices unchanged. -/
theorem getD_set_ne {α : Type} (l : List α) (i j : ℕ) (a d : α)
    (h : i ≠ j) : (l.set i a).getD j d = l.getD j d := by
  simp [List.getD_eq_getElem?_getD, List.getElem?_set_ne h]

/-- Reading position `i` of a two-write swap yields the old `j` value. -/
theorem getD_swapPair {α : Type} (l : List α) (i j : ℕ) (d : α)
    (hi : i < l.length) (hj : j < l.length) :
    ((l.set i (l.getD j d)).set j (l.getD i d)).getD i d = l.getD j d := by
  by_cases hij : i = j
  · subst hij
    rw [getD_set_self _ _ _ _ (by simpa using hi)]
  · rw [getD_set_ne _ _ _ _ _ (Ne.symm hij), getD_set_self _ _ _ _ hi]

/-- Every element of a two-write swap is an old element or the default. -/
theorem mem_swapPair {α : Type} (l : List α) (i j : ℕ) (d : α) :
    ∀ x ∈ (l.set i (l.getD j d)).set j (l.getD i d), x ∈ l ∨ x = d := by
  intro x hx
  rcases List.mem_or_eq_of_mem_set hx with hx | hx
  · rcases List.mem_or_eq_of_mem_set hx with hx | hx
    · left; exact hx
    · rw [hx]; exact getD_mem_or l j d
  · rw [hx]; exact getD_mem_or l i d

/-- A two-write swap preserves the length. -/
theorem length_swapPair {α : Type} (l : List α) (i j : ℕ) (d : α) :
    ((l.set i (l.getD j d)).set j (l.getD i d)).length = l.length := by
  simp

/-- Mapping a monadic function that succeeds elementwise succeeds, with
the elementwise postcondition. -/
theorem exceptMapM_ok {α β : Type} (f : α → Except String β) (Q : β → Prop) :
    ∀ l : List α, (∀ a ∈ l, ∃ b, f a = .ok b ∧ Q b) →
      ∃ bs, l.mapM f = .ok bs ∧ bs.length = l.length ∧ ∀ b ∈ bs, Q b := by
  intro l
  induction l with
  | nil => intro _; exact ⟨[], rfl, rfl, by simp⟩
  | cons a l ih =>
    intro h
    obtain ⟨b, hfb, hQb⟩ := h a (List.mem_cons_self a l)
    obtain ⟨bs, hbs, hlen, hQ⟩ := ih (fun x hx => h x (List.mem_cons_of_mem a hx))
    refine ⟨b :: bs, ?_, by simp [hlen], ?_⟩
    · rw [List.mapM_cons, hfb, hbs]; rfl
    · intro x hx
      rcases List.mem_cons.mp hx with rfl | hx
      · exact hQb
      · exact hQ x hx

namespace RationalSolver

/-- A matrix read has a positive denominator when all entries do. -/
theorem getEntry_denpos {B : List (List Frac)}
    (hB : ∀ row ∈ B, ∀ x ∈ row, 0 < x.den) (r c : ℕ) :
    0 < (getEntry B r c).den := by
  unfold getEntry
  rcases getD_mem_or B r [] with hm | hm
  · rcases getD_mem_or (B.getD r []) c qZero with hm2 | hm2
    · exact hB _ hm _ hm2
    · rw [hm2]; norm_num [qZero]
  · rw [hm]; norm_num [qZero]

/-- The pivot search returns a row in range whose entry has a nonzero
numerator. -/
theorem pivotFindAux_spec (B : List (List Frac)) (col : ℕ) :
    ∀ (rem p q : ℕ), pivotFindAux B col rem p = some q →
      (getEntry B q col).num ≠ 0 ∧ p ≤ q ∧ q < p + rem := by
  intro rem
  induction rem with
  | zero => intro p q h; simp [pivotFindAux] at h
  | succ rem ih =>
    intro p q h
    unfold pivotFindAux at h
    by_cases hz : (getEntry B p col).num ≠ 0
    · rw [if_pos hz] at h
      cases h
      exact ⟨hz, le_rfl, by omega⟩
    · rw [if_neg hz] at h
      obtain ⟨h1, h2, h3⟩ := ih (p + 1) q h
      exact ⟨h1, by omega, by omega⟩

/-- Row normalization succeeds under the entry invariant with a nonzero
pivot numerator. -/
theorem rowDivFrom_ok (col : ℕ) (piv : Frac) (r : List Frac)
    (hpiv : piv.num ≠ 0) (hr : ∀ x ∈ r, 0 < x.den) :
    ∃ out, rowDivFrom col piv r = .ok out ∧ ∀ x ∈ out, 0 < x.den := by
  obtain ⟨tl, htl, hlen, hQ⟩ := exceptMapM_ok (fun x => fDiv x piv)
    (fun y => 0 < y.den) (r.drop col)
    (fun x hx => fDiv_ok x piv (hr x (List.drop_subset _ _ hx)) hpiv)
  refine ⟨r.take col ++ tl, ?_, ?_⟩
  · unfold rowDivFrom; rw [htl]; rfl
  · intro x hx
    rcases List.mem_append.mp hx with hx | hx
    · exact hr x (List.take_subset _ _ hx)
    · exact hQ x hx

/-- Row elimination succeeds under the entry invariants. -/
theorem rowElimFrom_ok (col : ℕ) (factor : Frac) (pivRow r : List Frac)
    (hfac : 0 < factor.den) (hpr : ∀ x ∈ pivRow, 0 < x.den)
    (hr : ∀ x ∈ r, 0 < x.den) :
    ∃ out, rowElimFrom col factor pivRow r = .ok out ∧ ∀ x ∈ out, 0 < x.den := by
  have helem : ∀ p ∈ (r.drop col).zip (pivRow.drop col),
      ∃ s, (do fSub p.1 (← fMul factor p.2) : Except String Frac) = .ok s
        ∧ 0 < s.den := by
    intro p hp
    obtain ⟨hp1, hp2⟩ := List.of_mem_zip hp
    obtain ⟨t, ht, htden⟩ := fMul_ok factor p.2 hfac
      (hpr p.2 (List.drop_subset _ _ hp2))
    obtain ⟨s, hs, hsden⟩ := fSub_ok p.1 t
      (hr p.1 (List.drop_subset _ _ hp1)) htden
    refine ⟨s, ?_, hsden⟩
    rw [ht]
    exact hs
  obtain ⟨tl, htl, hlen, hQ⟩ := exceptMapM_ok
    (fun p => do fSub p.1 (← fMul factor p.2)) (fun y => 0 < y.den)
    ((r.drop col).zip (pivRow.drop col)) helem
  refine ⟨r.take col ++ tl, ?_, ?_⟩
  · unfold rowElimFrom; rw [htl]; rfl
  · intro x hx
    rcases List.mem_append.mp hx with hx | hx
    · exact hr x (List.take_subset _ _ hx)
    · exact hQ x hx

/-- One step of the row-elimination loop succeeds under the invariants. -/
theorem elimRow_ok (col r : ℕ) (st1 : EState) (newRow : List Frac) (newbr : Frac)
    (hB : ∀ row ∈ st1.B, ∀ x ∈ row, 0 < x.den) (hb : ∀ x ∈ st1.b, 0 < x.den)
    (hnr : ∀ x ∈ newRow, 0 < x.den) (hnb : 0 < newbr.den) :
    ∃ pr, elimRow col r st1 newRow newbr = .ok pr
      ∧ (∀ x ∈ pr.1, 0 < x.den) ∧ 0 < pr.2.den := by
  unfold elimRow
  by_cases hr : r = st1.row
  · rw [if_pos hr]; exact ⟨(newRow, newbr), rfl, hnr, hnb⟩
  · rw [if_neg hr]
    have hrowden : ∀ x ∈ st1.B.getD r [], 0 < x.den := by
      intro x hx
      rcases getD_mem_or st1.B r [] with hm | hm
      · exact hB _ hm x hx
      · rw [hm] at hx; simp at hx
    have hbden : 0 < (st1.b.getD r qZero).den := by
      rcases getD_mem_or st1.b r qZero with hm | hm
      · exact hb _ hm
      · rw [hm]; norm_num [qZero]
    by_cases hf : (getEntry st1.B r col).num = 0
    · rw [if_pos hf]
      exact ⟨_, rfl, hrowden, hbden⟩
    · rw [if_neg hf]
      have hfden : 0 < (getEntry st1.B r col).den := getEntry_denpos hB r col
      obtain ⟨rr, hrr, hrrQ⟩ := rowElimFrom_ok col _ newRow (st1.B.getD r [])
        hfden hnr hrowden
      obtain ⟨t, ht, htden⟩ := fMul_ok (getEntry st1.B r col) newbr hfden hnb
      obtain ⟨bb, hbb, hbbden⟩ := fSub_ok (st1.b.getD r qZero) t hbden htden
      refine ⟨(rr, bb), ?_, hrrQ, hbbden⟩
      rw [hrr]
      show (fMul (getEntry st1.B r col) newbr).bind _ = Except.ok (rr, bb)
      rw [ht]
      show (fSub (st1.b.getD r qZero) t).bind _ = Except.ok (rr, bb)
      rw [hbb]
      rfl

/-- The elimination loop never throws, given the length and
positive-denominator invariants. -/
theorem elimGo_ok (m : ℕ) : ∀ (k col : ℕ) (st : EState),
    st.B.length = m → st.b.length = m →
    (∀ row ∈ st.B, ∀ x ∈ row, 0 < x.den) → (∀ x ∈ st.b, 0 < x.den) →
    ∃ st', elimGo m k col st = .ok st' := by
  intro k
  induction k with
  | zero => intro col st _ _ _ _; exact ⟨st, rfl⟩
  | succ k ih =>
    intro col st h1 h2 h3 h4
    unfold elimGo
    by_cases hrow : st.row ≥ m
    · rw [if_pos hrow]; exact ⟨st, rfl⟩
    · rw [if_neg hrow]
      cases hpf : pivotFind m st.B col st.row with
      | none => exact ih (col + 1) st h1 h2 h3 h4
      | some p =>
        obtain ⟨hpnum, hple, hplt⟩ := pivotFindAux_spec st.B col _ _ _ hpf
        have hpm : p < m := by omega
        have hrm : st.row < m := by omega
        have hB1len : (swapState st p).B.length = m := by
          show ((st.B.set st.row (st.B.getD p [])).set p (st.B.getD st.row [])).length = m
          rw [length_swapPair]; exact h1
        have hb1len : (swapState st p).b.length = m := by
          show ((st.b.set st.row (st.b.getD p qZero)).set p (st.b.getD st.row qZero)).length = m
          rw [length_swapPair]; exact h2
        have hB1mem : ∀ row ∈ (swapState st p).B, ∀ x ∈ row, 0 < x.den := by
          intro row hrowm
          rcases mem_swapPair st.B st.row p [] row hrowm with hm | hm
          · exact h3 row hm
          · rw [hm]; intro x hx; simp at hx
        have hb1mem : ∀ x ∈ (swapState st p).b, 0 < x.den := by
          intro x hx
          rcases mem_swapPair st.b st.row p qZero x hx with hm | hm
          · exact h4 x hm
          · rw [hm]; norm_num [qZero]
        have hgetB1 : (swapState st p).B.getD st.row [] = st.B.getD p [] := by
          show ((st.B.set st.row (st.B.getD p [])).set p (st.B.getD st.row [])).getD st.row []
              = st.B.getD p []
          exact getD_swapPair st.B st.row p [] (by omega) (by omega)
        have hpiv : (getEntry (swapState st p).B st.row col).num ≠ 0 := by
          show (((swapState st p).B.getD st.row []).getD col qZero).num ≠ 0
          rw [hgetB1]
          exact hpnum
        have hrowden : ∀ x ∈ (swapState st p).B.getD st.row [], 0 < x.den := by
          intro x hx
          rcases getD_mem_or (swapState st p).B st.row [] with hm | hm
          · exact hB1mem _ hm x hx
          · rw [hm] at hx; simp at hx
        have hbget : 0 < ((swapState st p).b.getD st.row qZero).den := by
          rcases getD_mem_or (swapState st p).b st.row qZero with hm | hm
          · exact hb1mem _ hm
          · rw [hm]; norm_num [qZero]
        obtain ⟨newRow, hnewRow, hnewRowQ⟩ :=
          rowDivFrom_ok col (getEntry (swapState st p).B st.row col)
            ((swapState st p).B.getD st.row []) hpiv hrowden
        obtain ⟨newbr, hnewbr, hnewbrden⟩ :=
          fDiv_ok ((swapState st p).b.getD st.row qZero)
            (getEntry (swapState st p).B st.row col) hbget hpiv
        obtain ⟨pairs, hpairs, hplen, hpQ⟩ :=
          exceptMapM_ok (fun r => elimRow col r (swapState st p) newRow newbr)
            (fun pr => (∀ x ∈ pr.1, 0 < x.den) ∧ 0 < pr.2.den) (List.range m)
            (fun r _ => by
              obtain ⟨pr, hpr, hq1, hq2⟩ :=
                elimRow_ok col r (swapState st p) newRow newbr hB1mem hb1mem
                  hnewRowQ hnewbrden
              exact ⟨pr, hpr, hq1, hq2⟩)
        obtain ⟨st', hst'⟩ := ih (col + 1)
          ⟨pairs.map Prod.fst, pairs.map Prod.snd, st.row + 1,
            st.pivots.set col (some st.row)⟩
          (by simp [hplen]) (by simp [hplen])
          (by
            intro row hrowm
            rw [List.mem_map] at hrowm
            obtain ⟨pr, hpr, hprr⟩ := hrowm
            rw [← hprr]
            exact (hpQ pr hpr).1)
          (by
            intro x hx
            rw [List.mem_map] at hx
            obtain ⟨pr, hpr, hprx⟩ := hx
            rw [← hprx]
            exact (hpQ pr hpr).2)
        refine ⟨st', ?_⟩
        show (rowDivFrom col (getEntry (swapState st p).B st.row col)
            ((swapState st p).B.getD st.row [])).bind _ = Except.ok st'
        rw [hnewRow]
        show (fDiv ((swapState st p).b.getD st.row qZero)
            (getEntry (swapState st p).B st.row col)).bind _ = Except.ok st'
        rw [hnewbr]
        show ((List.range m).mapM
            (fun r => elimRow col r (swapState st p) newRow newbr)).bind _
            = Except.ok st'
        rw [hpairs]
        exact hst'

end RationalSolver


/-! ## Claim theorems: solver outputs -/

/-- C1 (failing input): on `leftFormulas = ["H2", "O2"]`,
`rightFormulas = ["H2"]` with the element counter as `countFn`, the
exact-rational `solveEquation` returns the coefficient vector
`{left: [1, 0], right: [1]}` — the second left coefficient is 0, so the
claim that every returned coefficient is strictly positive fails (the
solver's own comments promise positive coefficients on both sides and a
result with all species present). -/
theorem c1_solver_returns_zero_coefficient :
    RationalSolver.solveEquation ["H2", "O2"] ["H2"] countElementsFn
      = .ok (some ⟨[1, 0], [1]⟩)
    ∧ ¬ (∀ z ∈ ([1, 0] : List ℤ), 0 < z) :=
  ⟨rfl, by decide⟩

/-- C10: arrow normalization also rewrites the ASCII bidirectional
spellings `<=>`, `<->` and longer dash runs such as `<--->` to the
canonical arrow, so `splitEquation` accepts an equation written with
`<->`. -/
theorem c10_bidirectional_arrows_recognized :
    normalizeArrow "<=>" = "->"
    ∧ normalizeArrow "<->" = "->"
    ∧ normalizeArrow "<--->" = "->"
    ∧ splitEquation "H2 + O2 <-> H2O" = some ⟨["H2", "O2"], ["H2O"]⟩ :=
  ⟨by decide, by decide, by decide, by decide⟩

/-- C9: `countElementsInFormula` is deterministic — it is a pure
function of the input string, so two calls with identical input yield
identical mappings — and the keys of each returned mapping are sorted
lexicographically by element symbol. -/
theorem c9_count_elements_deterministic_and_sorted :
    ∀ formula : String,
      (∀ r₁ r₂, countElementsInFormula formula = some r₁ →
        countElementsInFormula formula = some r₂ → r₁ = r₂)
      ∧ (∀ r, countElementsInFormula formula = some r →
          r.Pairwise (fun a b => lexLe a.1.toList b.1.toList = true)) := by
  intro formula
  constructor
  · intro r₁ r₂ h₁ h₂
    rw [h₁] at h₂
    exact Option.some_inj.mp h₂
  · intro r hr
    unfold countElementsInFormula at hr
    cases hm : tokensToCounts (tokenizeFormula formula) with
    | none => rw [hm] at hr; exact absurd hr (by simp)
    | some m =>
      rw [hm] at hr
      have : r = sortPairs m := (Option.some_inj.mp hr).symm
      rw [this]
      exact sortPairs_pairwise m

/-- C9 witness: instance of the hypothesis-bearing parts at a concrete
input. -/
theorem c9_count_elements_deterministic_and_sorted_witness :
    ([(("H" : String), (2 : ℤ)), ("O", 1)]).Pairwise
      (fun a b => lexLe a.1.toList b.1.toList = true) :=
  (c9_count_elements_deterministic_and_sorted "H2O").2
    [("H", 2), ("O", 1)] (by decide)

/-- C7 (amended): every count in the mapping returned by
`countElementsInFormula` is non-negative; and whenever every numeric
multiplicity in the tokenized formula is strictly positive (no explicit
`0` digit run), no entry is 0 — every count is strictly positive.  (The
unamended claim fails on inputs with an explicit zero multiplicity such
as `"H0"`.) -/
theorem c7_amended_counts_nonneg :
    ∀ (formula : String) (r : Counts), countElementsInFormula formula = some r →
      (∀ p ∈ r, 0 ≤ p.2)
      ∧ ((∀ t ∈ tokenizeFormula formula, tokPred (fun z => 0 < z) t) →
          ∀ p ∈ r, 0 < p.2) := by
  intro formula r hr
  unfold countElementsInFormula at hr
  cases hm : tokensToCounts (tokenizeFormula formula) with
  | none => rw [hm] at hr; exact absurd hr (by simp)
  | some m =>
    rw [hm] at hr
    have hrm : r = sortPairs m := (Option.some_inj.mp hr).symm
    have hperm := sortPairs_perm m
    constructor
    · intro p hp
      have hpm : p ∈ m := hperm.mem_iff.mp (hrm ▸ hp)
      refine goTok_pred (P := fun z => 0 ≤ z) ?_ ?_ ?_
        (tokenizeFormula formula).length (tokenizeFormula formula)
        [([] : Counts)] m ?_ ?_ hm p hpm
      · intro a b ha hb; rcases ha with ha | ha <;> omega
      · intro a b ha hb; exact mul_nonneg ha hb
      · omega
      · exact fun t ht => tokenizeAux_nonneg _ _ t ht
      · intro mm hmm
        rcases List.mem_singleton.mp hmm with rfl
        intro q hq; simp at hq
    · intro hpos p hp
      have hpm : p ∈ m := hperm.mem_iff.mp (hrm ▸ hp)
      refine goTok_pred (P := fun z => 0 < z) ?_ ?_ ?_
        (tokenizeFormula formula).length (tokenizeFormula formula)
        [([] : Counts)] m hpos ?_ hm p hpm
      · intro a b ha hb; rcases ha with ha | ha <;> omega
      · intro a b ha hb; exact mul_pos ha hb
      · omega
      · intro mm hmm
        rcases List.mem_singleton.mp hmm with rfl
        intro q hq; simp at hq

/-- C7 (amended) witness: closed instance at a concrete formula, each
count of `H2O` strictly positive by the amended theorem. -/
theorem c7_amended_counts_nonneg_witness :
    countElementsInFormula "H2O" = some [("H", 2), ("O", 1)]
    ∧ (0 : ℤ) < 2 ∧ (0 : ℤ) < 1 := by
  have h := (c7_amended_counts_nonneg "H2O" [("H", 2), ("O", 1)] (by decide)).2 (by
    intro t ht
    have htoks : tokenizeFormula "H2O" = [Token.elem "H" 2, Token.elem "O" 1] := by decide
    rw [htoks] at ht
    rcases List.mem_cons.mp ht with rfl | ht'
    · show (0 : ℤ) < 2; omega
    · rcases List.mem_cons.mp ht' with rfl | ht''
      · show (0 : ℤ) < 1; omega
      · simp at ht'')
  exact ⟨by decide, h ("H", 2) (by decide), h ("O", 1) (by decide)⟩

/-- C7 (counterexample): `countElementsInFormula "H0"` returns the
mapping `{H: 0}`, so an element symbol can appear in the result with
count 0, contradicting the claim that absence encodes zero. -/
theorem c7_counterexample_zero_count_entry :
    countElementsInFormula "H0" = some [("H", 0)]
    ∧ ¬ (∀ p ∈ [(("H" : String), (0 : ℤ))], p.2 ≠ 0) :=
  ⟨by decide, by decide⟩

/-! ## C2: the exact-rational solver verifies exactly and never throws -/

/-- Initialization and elimination in `solveRationalForLastColumn`
always succeed: the result is `Except.ok`. -/
theorem solveRationalForLastColumn_ok (A : List (List ℤ)) :
    ∃ ro, RationalSolver.solveRationalForLastColumn A = .ok ro := by
  unfold RationalSolver.solveRationalForLastColumn
  by_cases hn : (A.headD []).length ≤ 1
  · rw [if_pos hn]; exact ⟨none, rfl⟩
  · rw [if_neg hn]
    obtain ⟨B, hB, hBlen, hBQ⟩ := exceptMapM_ok
      (fun (row : List ℤ) =>
        (row.take ((A.headD []).length - 1)).mapM
          (fun z => RationalSolver.makeFrac z 1))
      (fun r => ∀ x ∈ r, 0 < x.den) A (by
        intro row _
        obtain ⟨r, hr, _, hrQ⟩ := exceptMapM_ok
          (fun z => RationalSolver.makeFrac z 1)
          (fun x => 0 < x.den) (row.take ((A.headD []).length - 1)) (by
            intro z _
            exact ⟨⟨z, 1⟩, RationalSolver.makeFrac_int z, by norm_num⟩)
        exact ⟨r, hr, hrQ⟩)
    obtain ⟨b, hb, hblen, hbQ⟩ := exceptMapM_ok
      (fun (row : List ℤ) =>
        RationalSolver.makeFrac (-(row.getD ((A.headD []).length - 1) 0)) 1)
      (fun x => 0 < x.den) A (by
        intro row _
        exact ⟨_, RationalSolver.makeFrac_int _, by norm_num⟩)
    obtain ⟨st', hst'⟩ := RationalSolver.elimGo_ok A.length
      ((A.headD []).length - 1) 0
      ⟨B, b, 0, List.replicate ((A.headD []).length - 1) none⟩
      hBlen hblen hBQ hbQ
    refine ⟨some (((List.range ((A.headD []).length - 1)).map (fun c =>
      match st'.pivots.getD c none with
      | some r => st'.b.getD r qZero
      | none => qZero)) ++ [⟨1, 1⟩]), ?_⟩
    rw [hB]
    show (A.mapM (fun (row : List ℤ) =>
        RationalSolver.makeFrac (-(row.getD ((A.headD []).length - 1) 0)) 1)).bind
        _ = _
    rw [hb]
    show (RationalSolver.elimGo A.length ((A.headD []).length - 1) 0
        ⟨B, b, 0, List.replicate ((A.headD []).length - 1) none⟩).bind _ = _
    rw [hst']
    rfl

/-- If `fracsToIntegerCoeffs` returns a candidate, then that candidate
passed the exact integer re-verification: every row of `A` dotted with
the concatenated coefficient vector is zero. -/
theorem fracsToIntegerCoeffs_check (fv : List Frac)
    (ll rl : ℕ) (A : List (List ℤ)) (s : Coeffs)
    (h : RationalSolver.fracsToIntegerCoeffs fv ll rl A = some s) :
    ∀ row ∈ A, RationalSolver.rowDotZero row (s.left ++ s.right) = true := by
  simp only [RationalSolver.fracsToIntegerCoeffs] at h
  repeat' split at h
  all_goals try exact Option.noConfusion h
  all_goals
    obtain rfl := Option.some.inj h
    intro row hrow
    have hall := List.all_eq_true.mp (by assumption) row hrow
    simpa [List.take_append_drop] using hall

/-- `analyzeBalanceability` (exact-rational version) never throws, and
any suggested coefficient pair it reports balanceable came out of
`fracsToIntegerCoeffs` on the built matrix. -/
theorem rationalAnalyze_ok (lf rf : List String) (cf : String → Records) :
    ∃ r, RationalSolver.analyzeBalanceability lf rf cf = .ok r ∧
      (∀ s, r.suggestion = some s →
        ∃ raw, RationalSolver.fracsToIntegerCoeffs raw lf.length rf.length
          (buildElementMatrix lf rf cf).A = some s) := by
  unfold RationalSolver.analyzeBalanceability
  by_cases h0 : (buildElementMatrix lf rf cf).A.length = 0
      ∨ ((buildElementMatrix lf rf cf).A.headD []).length = 0
  · rw [if_pos h0]
    exact ⟨⟨false, 0, none⟩, rfl, by intro s hs; exact absurd hs (by simp)⟩
  · rw [if_neg h0]
    obtain ⟨ro, hro⟩ := solveRationalForLastColumn_ok (buildElementMatrix lf rf cf).A
    rw [hro]
    cases ro with
    | none => exact ⟨⟨false, 0, none⟩, rfl, by intro s hs; exact absurd hs (by simp)⟩
    | some raw =>
      cases hf : RationalSolver.fracsToIntegerCoeffs raw lf.length rf.length
          (buildElementMatrix lf rf cf).A with
      | none =>
        refine ⟨⟨false, 0, none⟩, ?_, by intro s hs; exact absurd hs (by simp)⟩
        show (match RationalSolver.fracsToIntegerCoeffs raw lf.length rf.length
            (buildElementMatrix lf rf cf).A with
          | none => pure ⟨false, 0, none⟩
          | some s => pure ⟨true, 1, some s⟩ : Except String AnalyzeRes) = _
        rw [hf]
        rfl
      | some s0 =>
        refine ⟨⟨true, 1, some s0⟩, ?_, ?_⟩
        · show (match RationalSolver.fracsToIntegerCoeffs raw lf.length rf.length
              (buildElementMatrix lf rf cf).A with
            | none => pure ⟨false, 0, none⟩
            | some s => pure ⟨true, 1, some s⟩ : Except String AnalyzeRes) = _
          rw [hf]
          rfl
        · intro s hs
          obtain rfl := Option.some.inj hs
          exact ⟨raw, hf⟩

/-- **C2.** Exact re-verification and total error handling in the
exact-rational pipeline: `solveEquation` never throws, and whenever it
returns a coefficient pair, multiplying every row of the original
integer element matrix by the concatenated integer vector gives exactly
zero (integer arithmetic, no tolerance) -- an unverified candidate is
never returned, `fracsToIntegerCoeffs` having discarded it. -/
theorem c2_exact_verification_no_throw
    (lf rf : List String) (cf : String → Records) :
    (∃ ro, RationalSolver.solveEquation lf rf cf = .ok ro) ∧
    (∀ s, RationalSolver.solveEquation lf rf cf = .ok (some s) →
      ∀ row ∈ (buildElementMatrix lf rf cf).A,
        RationalSolver.rowDotZero row (s.left ++ s.right) = true) := by
  obtain ⟨r, hr, hsug⟩ := rationalAnalyze_ok lf rf cf
  constructor
  · refine ⟨if r.balanceableAllSpecies then r.suggestion else none, ?_⟩
    unfold RationalSolver.solveEquation
    rw [hr]
    show (if r.balanceableAllSpecies = true then pure r.suggestion else pure none
      : Except String (Option Coeffs)) = _
    by_cases hb : r.balanceableAllSpecies
    · rw [if_pos hb, if_pos hb]; rfl
    · rw [if_neg hb, if_neg hb]; rfl
  · intro s hs
    unfold RationalSolver.solveEquation at hs
    rw [hr] at hs
    change (if r.balanceableAllSpecies = true then pure r.suggestion
      else pure none : Except String (Option Coeffs)) = Except.ok (some s) at hs
    by_cases hb : r.balanceableAllSpecies
    · rw [if_pos hb] at hs
      have hss : r.suggestion = some s := Except.ok.inj hs
      obtain ⟨raw, hf⟩ := hsug s hss
      exact fracsToIntegerCoeffs_check raw lf.length rf.length _ s hf
    · rw [if_neg hb] at hs
      exact Option.noConfusion (Except.ok.inj hs)

/-- C2 witness: the pipeline at a concrete input returns `ok`, and the
returned coefficients annihilate every matrix row. -/
theorem c2_exact_verification_no_throw_witness :
    RationalSolver.solveEquation ["H2", "O2"] ["H2"] countElementsFn
      = .ok (some ⟨[1, 0], [1]⟩) ∧
    ∀ row ∈ (buildElementMatrix ["H2", "O2"] ["H2"] countElementsFn).A,
      RationalSolver.rowDotZero row ((⟨[1, 0], [1]⟩ : Coeffs).left
        ++ (⟨[1, 0], [1]⟩ : Coeffs).right) = true :=
  ⟨rfl, (c2_exact_verification_no_throw ["H2", "O2"] ["H2"] countElementsFn).2
    ⟨[1, 0], [1]⟩ rfl⟩


/-! ## helper lemmas for the bounded combination search -/

/-- Normalizing a zero numerator gives the canonical zero. -/
theorem normFrac_zero (d : ℤ) : normFrac 0 d = qZero := by
  unfold normFrac qZero
  split
  · rfl
  · simp

/-- `x * 0 = 0` on the idealized reals. -/
theorem qMul_zero_right (x : Frac) : qMul x qZero = qZero := by
  unfold qMul
  simp [qZero, normFrac_zero]

/-- `0 * y = 0` on the idealized reals. -/
theorem qMul_intZero (y : Frac) : qMul (intFrac 0) y = qZero := by
  unfold qMul
  simp [intFrac, qZero, normFrac_zero]

/-- Accumulating only zero contributions leaves the accumulator zero. -/
theorem foldl_qAdd_zero {α : Type} (g : α → Frac) :
    ∀ L : List α, (∀ p ∈ L, g p = qZero) →
      L.foldl (fun acc p => qAdd acc (g p)) qZero = qZero := by
  intro L
  induction L with
  | nil => intro _; rfl
  | cons a L ih =>
    intro h
    have ha := h a (List.mem_cons_self a L)
    show (a :: L).foldl (fun acc p => qAdd acc (g p)) qZero = qZero
    rw [List.foldl_cons, ha]
    have h0 : qAdd qZero qZero = qZero := by decide
    rw [h0]
    exact ih (fun p hp => h p (List.mem_cons_of_mem a hp))

/-- Reading a mapped range at an in-range index. -/
theorem range_map_getD {α : Type} (n c : ℕ) (g : ℕ → α) (d : α) (h : c < n) :
    ((List.range n).map g).getD c d = g c := by
  rw [List.getD_eq_getElem?_getD, List.getElem?_map, List.getElem?_range h]
  rfl

namespace NullspaceSolver

/-- The free columns are pairwise distinct. -/
theorem freeColsOf_nodup (piv : List (Option ℕ)) (n : ℕ) :
    (freeColsOf piv n).Nodup :=
  (List.nodup_range n).filter _

/-- Membership in the free-column list. -/
theorem mem_freeColsOf (piv : List (Option ℕ)) (n c : ℕ) :
    c ∈ freeColsOf piv n ↔ c < n ∧ piv.getD c none = none := by
  unfold freeColsOf
  rw [List.mem_filter, List.mem_range]
  simp [Option.isNone_iff_eq_none]

/-- A basis vector read at a free column is 1 at its own column and 0
at every other free column. -/
theorem basisVec_getD_free (M : List (List Frac)) (piv : List (Option ℕ))
    (n f c : ℕ) (hc : c < n) (hfree : piv.getD c none = none) :
    (basisVec M piv n f).getD c qZero = if c = f then intFrac 1 else qZero := by
  unfold basisVec
  rw [range_map_getD _ _ _ _ hc, hfree]

/-- A basis vector has one entry per column. -/
theorem basisVec_length (M : List (List Frac)) (piv : List (Option ℕ)) (n f : ℕ) :
    (basisVec M piv n f).length = n := by
  unfold basisVec
  simp

end NullspaceSolver

namespace NullspaceSolver

/-- A vector with a zero entry never passes `allPositiveUpToSign`:
after any sign flip the entry is still zero, and `0 > EPS` fails. -/
theorem allPositive_of_zero_entry (v : List Frac) (hx : qZero ∈ v) :
    allPositiveUpToSign v = false := by
  rw [Bool.eq_false_iff]
  intro hall
  simp only [allPositiveUpToSign] at hall
  have h := List.all_eq_true.mp hall qZero hx
  rw [qMul_zero_right] at h
  exact absurd h (by decide)

/-- A combination whose `i0`-th coefficient is zero produces a zero
entry at the `i0`-th free column: the basis vectors form a delta
pattern on the free columns. -/
theorem comboVec_entry_zero (M : List (List Frac)) (piv : List (Option ℕ))
    (n : ℕ) (cs : List ℤ) (i0 : ℕ)
    (hlen : cs.length = (freeColsOf piv n).length)
    (hi0 : i0 < (freeColsOf piv n).length)
    (hcs : cs.getD i0 0 = 0) :
    qZero ∈ comboVec cs ((freeColsOf piv n).map (basisVec M piv n)) := by
  have hj0mem : (freeColsOf piv n).getD i0 0 ∈ freeColsOf piv n := by
    rw [List.getD_eq_getElem _ _ hi0]
    exact List.getElem_mem _
  obtain ⟨hj0n, hj0piv⟩ := (mem_freeColsOf piv n _).mp hj0mem
  have hhead : (((freeColsOf piv n).map (basisVec M piv n)).headD []).length = n := by
    cases hfr : freeColsOf piv n with
    | nil => rw [hfr] at hi0; simp at hi0
    | cons f0 fr =>
      show ((basisVec M piv n f0 :: fr.map (basisVec M piv n)).headD []).length = n
      exact basisVec_length M piv n f0
  unfold comboVec
  rw [hhead]
  refine List.mem_map.mpr ⟨(freeColsOf piv n).getD i0 0, List.mem_range.mpr hj0n, ?_⟩
  refine foldl_qAdd_zero
    (fun (p : ℤ × List Frac) =>
      qMul (intFrac p.1) (p.2.getD ((freeColsOf piv n).getD i0 0) qZero)) _ ?_
  intro p hp
  obtain ⟨k, hk, hpk⟩ := List.mem_iff_getElem.mp hp
  have hkcs : k < cs.length := by
    have h2 := hk
    rw [List.length_zip] at h2
    omega
  have hkb : k < ((freeColsOf piv n).map (basisVec M piv n)).length := by
    have h2 := hk
    rw [List.length_zip] at h2
    omega
  have hzip : (cs.zip ((freeColsOf piv n).map (basisVec M piv n)))[k] =
      (cs[k], ((freeColsOf piv n).map (basisVec M piv n))[k]) := List.getElem_zip
  rw [hzip] at hpk
  have hkfree : k < (freeColsOf piv n).length := by
    rw [List.length_map] at hkb; exact hkb
  by_cases hki : k = i0
  · subst hki
    have : cs[k] = 0 := by
      rw [← List.getD_eq_getElem cs 0 hkcs]
      exact hcs
    rw [← hpk]
    show qMul (intFrac cs[k]) _ = qZero
    rw [this]
    exact qMul_intZero _
  · rw [← hpk]
    show qMul (intFrac cs[k])
      ((((freeColsOf piv n).map (basisVec M piv n))[k]).getD
        ((freeColsOf piv n).getD i0 0) qZero) = qZero
    have hbk : ((freeColsOf piv n).map (basisVec M piv n))[k] =
        basisVec M piv n ((freeColsOf piv n)[k]) := List.getElem_map _
    rw [hbk, basisVec_getD_free M piv n _ _ hj0n hj0piv]
    have hne : ¬ ((freeColsOf piv n).getD i0 0 = (freeColsOf piv n)[k]) := by
      rw [List.getD_eq_getElem _ _ hi0]
      intro heq
      exact hki ((List.Nodup.getElem_inj_iff (freeColsOf_nodup piv n)).mp heq.symm)
    rw [if_neg hne]
    exact qMul_zero_right _

/-- Unrolling a foldr of appends: membership is membership in one of
the appended blocks. -/
theorem mem_foldr_append {α β : Type} (g : α → List β) (x : β) :
    ∀ l : List α, (x ∈ l.foldr (fun k acc => g k ++ acc) [] ↔ ∃ k ∈ l, x ∈ g k) := by
  intro l
  induction l with
  | nil => simp
  | cons a l ih =>
    show x ∈ g a ++ l.foldr (fun k acc => g k ++ acc) [] ↔ _
    rw [List.mem_append, ih]
    constructor
    · rintro (hx | ⟨k, hk, hx⟩)
      · exact ⟨a, List.mem_cons_self a l, hx⟩
      · exact ⟨k, List.mem_cons_of_mem a hk, hx⟩
    · rintro ⟨k, hk, hx⟩
      rcases List.mem_cons.mp hk with rfl | hk
      · exact Or.inl hx
      · exact Or.inr ⟨k, hk, hx⟩

/-- The generated combinations are exactly the tuples of the right
length with all coefficients drawn from `K`. -/
theorem allCombos_mem : ∀ (b : ℕ) (cs : List ℤ),
    cs ∈ allCombos b ↔ cs.length = b ∧ ∀ c ∈ cs, c ∈ Kcoeffs := by
  intro b
  induction b with
  | zero =>
    intro cs
    show cs ∈ [[]] ↔ _
    constructor
    · intro h
      rcases List.mem_singleton.mp h with rfl
      exact ⟨rfl, by intro c hc; simp at hc⟩
    · rintro ⟨hl, _⟩
      rcases List.length_eq_zero.mp hl with rfl
      exact List.mem_singleton.mpr rfl
  | succ b ih =>
    intro cs
    show cs ∈ Kcoeffs.foldr (fun k acc => (allCombos b).map (fun t => k :: t) ++ acc) [] ↔ _
    rw [mem_foldr_append (fun k => (allCombos b).map (fun t => k :: t)) cs Kcoeffs]
    constructor
    · rintro ⟨k, hk, hcs⟩
      obtain ⟨t, ht, rfl⟩ := List.mem_map.mp hcs
      obtain ⟨hl, hK⟩ := (ih t).mp ht
      refine ⟨by simp [hl], ?_⟩
      intro c hc
      rcases List.mem_cons.mp hc with rfl | hc
      · exact hk
      · exact hK c hc
    · rintro ⟨hl, hK⟩
      cases cs with
      | nil => simp at hl
      | cons c t =>
        refine ⟨c, hK c (List.mem_cons_self c t), List.mem_map.mpr ⟨t, ?_, rfl⟩⟩
        refine (ih t).mpr ⟨by simpa using hl, fun d hd => hK d (List.mem_cons_of_mem c hd)⟩

end NullspaceSolver

namespace NullspaceSolver

/-- `nullspace` unfolded to its mapped-basis form. -/
theorem nullspace_shape (A : List (List ℤ)) :
    nullspace A = (freeColsOf (nsGo A.length (A.headD []).length 0
        ⟨A.map (fun row => row.map intFrac), 0,
          List.replicate (A.headD []).length none⟩).pivots (A.headD []).length).map
      (basisVec (nsGo A.length (A.headD []).length 0
          ⟨A.map (fun row => row.map intFrac), 0,
            List.replicate (A.headD []).length none⟩).M
        (nsGo A.length (A.headD []).length 0
          ⟨A.map (fun row => row.map intFrac), 0,
            List.replicate (A.headD []).length none⟩).pivots (A.headD []).length) := rfl

/-- A combination with any zero coefficient is rejected by the sign
test: the corresponding free column of the combined vector is zero. -/
theorem zero_coeff_rejected (A : List (List ℤ)) (cs : List ℤ) (i0 : ℕ)
    (hlen : cs.length = (nullspace A).length) (hi0 : i0 < cs.length)
    (hcs : cs.getD i0 0 = 0) :
    allPositiveUpToSign (comboVec cs (nullspace A)) = false := by
  rw [nullspace_shape] at hlen ⊢
  rw [List.length_map] at hlen
  exact allPositive_of_zero_entry _
    (comboVec_entry_zero _ _ _ cs i0 hlen (hlen ▸ hi0) hcs)

/-- Coefficients drawn from `K` lie in `[-3, 3]` and are nonzero. -/
theorem Kcoeffs_bounds (c : ℤ) (h : c ∈ Kcoeffs) : -3 ≤ c ∧ c ≤ 3 ∧ c ≠ 0 := by
  fin_cases h <;> norm_num

/-- Every nonzero integer in `[-3, 3]` is drawn from `K`. -/
theorem mem_Kcoeffs (c : ℤ) (h1 : -3 ≤ c) (h2 : c ≤ 3) (h3 : c ≠ 0) : c ∈ Kcoeffs := by
  show c ∈ [-3, -2, -1, 1, 2, 3]
  interval_cases c
  · decide
  · decide
  · decide
  · exact absurd rfl h3
  · decide
  · decide
  · decide

end NullspaceSolver

namespace NullspaceSolver

/-- **C3 (amended).** For a nullspace of dimension at least 2, the
floating-point solver's sign-feasibility search is an exhaustive search
over integer combinations of the basis vectors with coefficients in
`[-3, 3]`: a solution is found exactly when some such combination
passes the `allPositiveUpToSign` acceptance test (same sign with margin
`EPS = 1e-12` after the minority-sign flip; restricting the searched
coefficients to the nonzero ones loses nothing, because the basis is a
delta pattern on the free columns, so a combination with a zero
coefficient has a zero entry and is never accepted); and any returned
vector is itself such an accepted combination.  The claim's literal
"strict sign" acceptance is amended to the code's margin-`EPS`
acceptance (see the counterexample). -/
theorem c3_bounded_combination_search (A : List (List ℤ)) (ll rl : ℕ)
    (h2 : 2 ≤ (nullspace A).length) :
    ((findSignedFeasibleSolution (nullspace A) ll rl).isSome = true ↔
      ∃ cs, cs.length = (nullspace A).length ∧
        (∀ c ∈ cs, -3 ≤ c ∧ c ≤ 3) ∧
        allPositiveUpToSign (comboVec cs (nullspace A)) = true) ∧
    (∀ v, findSignedFeasibleSolution (nullspace A) ll rl = some v →
      ∃ cs, cs.length = (nullspace A).length ∧
        (∀ c ∈ cs, -3 ≤ c ∧ c ≤ 3 ∧ c ≠ 0) ∧
        v = comboVec cs (nullspace A) ∧ allPositiveUpToSign v = true) := by
  obtain ⟨b0, b1, bt, hshape⟩ : ∃ b0 b1 bt, nullspace A = b0 :: b1 :: bt := by
    cases hb : nullspace A with
    | nil => rw [hb] at h2; simp at h2
    | cons b0 t =>
      cases t with
      | nil => rw [hb] at h2; simp at h2
      | cons b1 bt => exact ⟨b0, b1, bt, rfl⟩
  have hfind : findSignedFeasibleSolution (nullspace A) ll rl =
      (allCombos (nullspace A).length).findSome? (fun cs =>
        if allPositiveUpToSign (comboVec cs (nullspace A)) then
          some (comboVec cs (nullspace A)) else none) := by
    rw [hshape]
    rfl
  constructor
  · constructor
    · intro hs
      cases hf : findSignedFeasibleSolution (nullspace A) ll rl with
      | none => rw [hf] at hs; simp at hs
      | some v =>
        rw [hfind] at hf
        obtain ⟨cs, hmem, hfcs⟩ := List.exists_of_findSome?_eq_some hf
        obtain ⟨hlen, hK⟩ := (allCombos_mem (nullspace A).length cs).mp hmem
        refine ⟨cs, hlen, ?_, ?_⟩
        · intro c hc
          obtain ⟨g1, g2, _⟩ := Kcoeffs_bounds c (hK c hc)
          exact ⟨g1, g2⟩
        · by_cases hacc : allPositiveUpToSign (comboVec cs (nullspace A)) = true
          · exact hacc
          · rw [if_neg hacc] at hfcs
            exact Option.noConfusion hfcs
    · rintro ⟨cs, hlen, hbound, hacc⟩
      have hK : ∀ c ∈ cs, c ∈ Kcoeffs := by
        intro c hc
        obtain ⟨i, hi, hci⟩ := List.mem_iff_getElem.mp hc
        have hne : c ≠ 0 := by
          intro h0
          have := zero_coeff_rejected A cs i hlen hi (by
            rw [List.getD_eq_getElem cs 0 hi, hci]
            exact h0)
          rw [this] at hacc
          exact Bool.noConfusion hacc
        obtain ⟨g1, g2⟩ := hbound c hc
        exact mem_Kcoeffs c g1 g2 hne
      have hmem : cs ∈ allCombos (nullspace A).length :=
        (allCombos_mem (nullspace A).length cs).mpr ⟨hlen, hK⟩
      rw [hfind]
      cases hf : (allCombos (nullspace A).length).findSome? (fun cs =>
          if allPositiveUpToSign (comboVec cs (nullspace A)) then
            some (comboVec cs (nullspace A)) else none) with
      | some v => rfl
      | none =>
        have := List.findSome?_eq_none_iff.mp hf cs hmem
        rw [if_pos hacc] at this
        exact Option.noConfusion this
  · intro v hv
    rw [hfind] at hv
    obtain ⟨cs, hmem, hfcs⟩ := List.exists_of_findSome?_eq_some hv
    obtain ⟨hlen, hK⟩ := (allCombos_mem (nullspace A).length cs).mp hmem
    by_cases hacc : allPositiveUpToSign (comboVec cs (nullspace A)) = true
    · rw [if_pos hacc] at hfcs
      refine ⟨cs, hlen, fun c hc => Kcoeffs_bounds c (hK c hc),
        (Option.some.inj hfcs).symm, ?_⟩
      rw [← Option.some.inj hfcs]
      exact hacc
    · rw [if_neg hacc] at hfcs
      exact Option.noConfusion hfcs

end NullspaceSolver


/-- C3 witness: at a concrete matrix with a 2-dimensional nullspace the
search succeeds, so an accepted bounded combination exists. -/
theorem c3_bounded_combination_search_witness :
    2 ≤ (NullspaceSolver.nullspace [[1, 1, -2]]).length ∧
    (∃ cs, cs.length = (NullspaceSolver.nullspace [[1, 1, -2]]).length ∧
      (∀ c ∈ cs, -3 ≤ c ∧ c ≤ 3) ∧
      NullspaceSolver.allPositiveUpToSign
        (NullspaceSolver.comboVec cs (NullspaceSolver.nullspace [[1, 1, -2]])) = true) :=
  ⟨by decide,
    (NullspaceSolver.c3_bounded_combination_search [[1, 1, -2]] 2 1 (by decide)).1.mp
      (by decide)⟩

/-- C3 (counterexample to the claim as stated): acceptance is not
"every entry has the same strict sign" -- it demands a margin of
`EPS = 1e-12`.  On the reachable matrix `[[10^13, -1, -1]]` (equation
`H10000000000000 -> H + H`) the nullspace is 2-dimensional and the
combination `(1, 1)` of its basis vectors is strictly positive in every
entry, yet the search (and the whole solver) returns the infeasible
signal `null`, because the first entry `2 / 10^13` does not exceed the
tolerance. -/
theorem c3_counterexample_strict_sign_combination_rejected :
    2 ≤ (NullspaceSolver.nullspace [[10 ^ 13, -1, -1]]).length ∧
    (∀ c ∈ [(1 : ℤ), 1], -3 ≤ c ∧ c ≤ 3) ∧
    (∀ x ∈ NullspaceSolver.comboVec [1, 1]
        (NullspaceSolver.nullspace [[10 ^ 13, -1, -1]]), qLt qZero x = true) ∧
    NullspaceSolver.findSignedFeasibleSolution
      (NullspaceSolver.nullspace [[10 ^ 13, -1, -1]]) 1 2 = none ∧
    (buildElementMatrix ["H10000000000000"] ["H", "H"] countElementsFn).A
      = [[10 ^ 13, -1, -1]] ∧
    NullspaceSolver.solveEquation ["H10000000000000"] ["H", "H"] countElementsFn = none :=
  ⟨by decide, by decide, by decide, by decide, by decide, by decide⟩

end ChemBalance
